import Mathlib

/-!
Verification of the free-text field-extraction engine of the tenere
repository (src/tenere/main.py) against its natural-language
specification.  Python floats are modelled as exact rational numbers
(no claim in scope depends on binary rounding); the distinguished
not-a-number, infinity and negative-infinity values of Python floats
are explicit constructors of the PFloat type.
-/

/-- Python float values as used by the extraction engine: finite values
are modelled as exact rationals; nan is the not-a-number sentinel that
to_float returns on parse failure. -/
inductive PFloat where
  | nan : PFloat
  | inf : PFloat
  | neginf : PFloat
  | fin : ℚ → PFloat
deriving DecidableEq

/-- The digit class of the regex token d (exactly the ASCII digits). -/
def isDig (c : Char) : Bool := List.contains ['0','1','2','3','4','5','6','7','8','9'] c

/-- Decimal-separator characters accepted by the code (comma or dot). -/
def isSep (c : Char) : Bool := List.contains [',', '.'] c

/-- ASCII whitespace, the relevant fragment of the Python whitespace
class used by str.strip and the regex token s. -/
def isWs (c : Char) : Bool := List.contains [' ', '\t', '\n', '\r', '\x0b', '\x0c'] c

/-- Case folding used to model case-insensitive regex matching. -/
def foldc (c : Char) : Char := c.toLower

/-- Length of the longest prefix of l whose characters all satisfy p. -/
def countLeading (p : Char → Bool) : List Char → Nat
  | [] => 0
  | c :: cs => if p c then countLeading p cs + 1 else 0

/-- Numeric value of one ASCII digit character. -/
def digVal (c : Char) : Nat := c.toNat - 48

/-- Numeric value of a list of ASCII digit characters read in base 10. -/
def digitsVal (ds : List Char) : Nat := ds.foldl (fun a c => 10 * a + digVal c) 0

/-- Consume the continuation of a Python digitpart after its first
digit: a run of digits in which single underscores may stand between
digits.  Returns the digits consumed (underscores removed) and the
unconsumed rest, following the grammar digit (["_"] digit)* of the
float built-in. -/
def digitsRest : List Char → (List Char × List Char)
  | [] => ([], [])
  | c :: rest =>
      if isDig c then ((digitsRest rest).1.cons c, (digitsRest rest).2)
      else if c = '_' then
        match rest with
        | c2 :: rest2 =>
            if isDig c2 then ((digitsRest rest2).1.cons c2, (digitsRest rest2).2)
            else ([], c :: rest)
        | [] => ([], c :: rest)
      else ([], c :: rest)

/-- A Python digitpart: at least one digit, with optional single
underscores between digits.  Returns the digits and the rest, or none
when the input does not start with a digit. -/
def digitPart (l : List Char) : Option (List Char × List Char) :=
  match l with
  | c :: rest =>
      if isDig c then some ((digitsRest rest).1.cons c, (digitsRest rest).2)
      else none
  | [] => none

/-- The number production of the Python float grammar:
digitpart ["." [digitpart]] or "." digitpart.  Returns the exact
rational value together with the unconsumed rest. -/
def parseNumber (l : List Char) : Option (ℚ × List Char) :=
  match digitPart l with
  | some Ir =>
      match Ir.2 with
      | c :: r2 =>
          if c = '.' then
            match digitPart r2 with
            | some Fr =>
                some ((digitsVal Ir.1 : ℚ) + (digitsVal Fr.1 : ℚ) / 10 ^ Fr.1.length,
                  Fr.2)
            | none => some ((digitsVal Ir.1 : ℚ), r2)
          else some ((digitsVal Ir.1 : ℚ), c :: r2)
      | [] => some ((digitsVal Ir.1 : ℚ), [])
  | none =>
      match l with
      | c :: r2 =>
          if c = '.' then
            match digitPart r2 with
            | some Fr => some ((digitsVal Fr.1 : ℚ) / 10 ^ Fr.1.length, Fr.2)
            | none => none
          else none
      | [] => none

/-- The optional exponent of the Python float grammar: (e or E), an
optional sign and a digitpart.  A malformed exponent is left
unconsumed, which makes the surrounding parse fail through the final
emptiness check, exactly as the built-in float rejects it. -/
def parseExp (l : List Char) : (ℤ × List Char) :=
  match l with
  | c :: rest =>
      if foldc c = 'e' then
        match rest with
        | s :: r2 =>
            if s = '+' ∨ s = '-' then
              match digitPart r2 with
              | some Er =>
                  (if s = '-' then -(digitsVal Er.1 : ℤ) else (digitsVal Er.1 : ℤ),
                    Er.2)
              | none => (0, c :: rest)
            else
              match digitPart rest with
              | some Er => ((digitsVal Er.1 : ℤ), Er.2)
              | none => (0, c :: rest)
        | [] => (0, c :: rest)
      else (0, c :: rest)
  | [] => (0, [])

/-- Sign-stripped body of the Python float built-in: an infinity word,
a nan word or a numeric literal with optional exponent, matched
case-insensitively.  Finite results are exact rationals (binary
rounding and overflow to infinity of very large literals are not
modelled; no claim depends on them). -/
def pyFloatBody (neg : Bool) (r : List Char) : Option PFloat :=
  if r.map foldc = ['i','n','f'] ∨ r.map foldc = ['i','n','f','i','n','i','t','y'] then
    some (if neg then PFloat.neginf else PFloat.inf)
  else if r.map foldc = ['n','a','n'] then
    some PFloat.nan
  else
    match parseNumber r with
    | some qr =>
        if (parseExp qr.2).2 = [] then
          some (PFloat.fin ((if neg then -qr.1 else qr.1) * 10 ^ (parseExp qr.2).1))
        else none
    | none => none

/-- The Python float built-in on an already stripped string: an
optional sign followed by the sign-stripped body. -/
def pyFloatCore (l : List Char) : Option PFloat :=
  match l with
  | [] => pyFloatBody false []
  | c :: r =>
      if c = '+' then pyFloatBody false r
      else if c = '-' then pyFloatBody true r
      else pyFloatBody false (c :: r)

/-- Strip leading and trailing whitespace, as Python str.strip. -/
def pyStrip (l : List Char) : List Char :=
  ((l.dropWhile isWs).reverse.dropWhile isWs).reverse

/-- Replace every comma by a dot, as the str.replace call in to_float. -/
def replaceComma (l : List Char) : List Char :=
  l.map (fun c => if c = ',' then '.' else c)

/-- to_float from src/tenere/main.py: replace commas by dots, strip
whitespace, parse with the float built-in; any parse failure yields
the nan sentinel instead of an error. -/
def to_float (s : String) : PFloat :=
  match pyFloatCore (pyStrip (replaceComma s.data)) with
  | some v => v
  | none => PFloat.nan

/-- The shape of the suffix regex passed to filter_suffixed_value in
the code: either a literal such as km, or a character class such as
the one written between square brackets in the source. -/
inductive Sfx where
  | lit : List Char → Sfx
  | cls : List Char → Sfx

/-- Case-insensitive test that the suffix regex matches at the head of
l (consuming a prefix of l): a literal must be a case-folded prefix, a
character class must accept the first character. -/
def Sfx.matchesAt : Sfx → List Char → Bool
  | Sfx.lit s, l =>
      decide (s.length ≤ l.length) &&
        decide (List.map foldc (List.take s.length l) = List.map foldc s)
  | Sfx.cls cs, l =>
      match l with
      | [] => false
      | c :: _ => List.contains (List.map foldc cs) (foldc c)

/-- Minimal number of characters any match of the suffix consumes. -/
def Sfx.minLen : Sfx → Nat
  | Sfx.lit s => s.length
  | Sfx.cls _ => 1

/-- Greedy backtracking over a counted quantifier: try n, n-1, ..., 0
and return the first value accepted, as a regex engine explores the
choices of a greedy star. -/
def greedyFind (n : Nat) (p : Nat → Bool) : Option Nat :=
  match n with
  | 0 => if p 0 then some 0 else none
  | Nat.succ m => if p (Nat.succ m) then some (Nat.succ m) else greedyFind m p

/-- Greedy backtracking over a plus quantifier: try n, n-1, ..., 1. -/
def greedyFind1 (n : Nat) (p : Nat → Bool) : Option Nat :=
  match n with
  | 0 => none
  | Nat.succ m => if p (Nat.succ m) then some (Nat.succ m) else greedyFind1 m p

/-- Does q hold for some j with j at most n. -/
def anyLe (n : Nat) (q : Nat → Bool) : Bool :=
  match n with
  | 0 => q 0
  | Nat.succ m => q (Nat.succ m) || anyLe m q

/-- Can the tail s-star sfx of the regex match at l: some amount of
leading whitespace is skipped (the greedy engine tries the longest
run first, but only success matters here because the whitespace is
outside the capture group) and then the suffix must match. -/
def wsSfxOk (sfx : Sfx) (l : List Char) : Bool :=
  anyLe (countLeading isWs l) (fun j => Sfx.matchesAt sfx (List.drop j l))

/-- The d-star part of the capture group: from position r (just after
the optional separator), the engine greedily takes d digits, longest
first, such that whitespace plus suffix can follow; returns the
digits captured. -/
def fracTail (sfx : Sfx) (r : List Char) : Option (List Char) :=
  match greedyFind (countLeading isDig r) (fun d => wsSfxOk sfx (List.drop d r)) with
  | some d => some (List.take d r)
  | none => none

/-- The optional separator followed by the d-star part: the greedy
engine first tries to consume a separator character, backtracking to
the empty alternative if nothing completes after it; returns the
captured characters (separator and fraction digits). -/
def sepFracTail (sfx : Sfx) (r : List Char) : Option (List Char) :=
  match r with
  | c :: rest =>
      if isSep c then
        match fracTail sfx rest with
        | some g => some (c :: g)
        | none => fracTail sfx (c :: rest)
      else fracTail sfx (c :: rest)
  | [] => fracTail sfx []

/-- The d-plus and following parts of the pattern with the match
starting exactly at m (sign already consumed): the engine greedily
takes k leading digits, longest first with backtracking, such that
the rest of the pattern completes; returns the capture-group
characters from m. -/
def numCore (sfx : Sfx) (m : List Char) : Option (List Char) :=
  match greedyFind1 (countLeading isDig m) (fun k => (sepFracTail sfx (List.drop k m)).isSome) with
  | some k =>
      match sepFracTail sfx (List.drop k m) with
      | some t => some (List.take k m ++ t)
      | none => none
  | none => none

/-- One attempt of the whole pattern with the match starting exactly
at l: the optional sign is consumed when present (with the regex
backtracking to the signless alternative, which then necessarily
fails on the sign character); returns capture group 1. -/
def numAt (sfx : Sfx) (l : List Char) : Option (List Char) :=
  match l with
  | c :: rest =>
      if c = '+' ∨ c = '-' then
        match numCore sfx rest with
        | some g => some (c :: g)
        | none => numCore sfx l
      else numCore sfx l
  | [] => none

/-- re.search of the pattern over the text: attempt the match at each
position from the left and return capture group 1 of the first
position that succeeds. -/
def reSearchNum (sfx : Sfx) : List Char → Option (List Char)
  | [] => none
  | c :: rest =>
      match numAt sfx (c :: rest) with
      | some g => some g
      | none => reSearchNum sfx rest

/-- filter_suffixed_value from src/tenere/main.py: search the text,
case-insensitively, for the first number (optional sign, digits, an
optional separator with optional further digits) followed by optional
whitespace and the suffix regex; feed the captured number to to_float,
or return nan when there is no match. -/
def filter_suffixed_value (text : String) (sfx : Sfx) : PFloat :=
  match reSearchNum sfx text.data with
  | some g => to_float (String.mk g)
  | none => PFloat.nan

/-- The km suffix regex of filter_km. -/
def km_sfx : Sfx := Sfx.lit ['k', 'm']

/-- The litre suffix character class of filter_litres. -/
def litres_sfx : Sfx := Sfx.cls ['l', 'L']

/-- The currency character class of filter_euros, written in the
source between square brackets as e, a vertical bar, E and the euro
sign; inside a character class the vertical bar is one of the
accepted characters. -/
def euros_sfx : Sfx := Sfx.cls ['e', '|', 'E', '€']

/-- filter_km from src/tenere/main.py. -/
def filter_km (text : String) : PFloat := filter_suffixed_value text km_sfx

/-- filter_litres from src/tenere/main.py. -/
def filter_litres (text : String) : PFloat := filter_suffixed_value text litres_sfx

/-- filter_euros from src/tenere/main.py. -/
def filter_euros (text : String) : PFloat := filter_suffixed_value text euros_sfx

/-- A timezone-aware Python datetime as produced by the date/time
extractor; the zone is the fixed deployment zone and the offset
arithmetic of the zone is not modelled (no claim depends on it). -/
structure PyDateTime where
  year : Nat
  month : Nat
  day : Nat
  hour : Nat
  minute : Nat
  tz : String
deriving DecidableEq

/-- Format tokens of the arrow-style date and time templates used in
filter_datetime: two-digit and one-or-two-digit day, month, hour and
minute fields, a four-digit year, and literal characters. -/
inductive FTok where
  | DD : FTok
  | D : FTok
  | MM : FTok
  | M : FTok
  | YYYY : FTok
  | HH : FTok
  | H : FTok
  | mm : FTok
  | m : FTok
  | lit : Char → FTok
deriving DecidableEq

/-- The field values collected while matching one template; fields not
produced by the template keep the default zero, which is how the
date-only phase yields a midnight time of day. -/
structure DParts where
  year : Nat := 0
  month : Nat := 0
  day : Nat := 0
  hour : Nat := 0
  minute : Nat := 0
deriving DecidableEq

/-- The empty collection of parts a template match starts from. -/
def DParts.init : DParts := {}

/-- Take exactly two digit characters as a number. -/
def dig2 (l : List Char) : Option (Nat × List Char) :=
  match l with
  | a :: b :: r =>
      if isDig a && isDig b then some (10 * digVal a + digVal b, r) else none
  | _ => none

/-- Take exactly one digit character as a number. -/
def dig1 (l : List Char) : Option (Nat × List Char) :=
  match l with
  | a :: r => if isDig a then some (digVal a, r) else none
  | _ => none

/-- Take exactly four digit characters as a number. -/
def dig4 (l : List Char) : Option (Nat × List Char) :=
  match l with
  | a :: b :: c :: d :: r =>
      if isDig a && isDig b && isDig c && isDig d then
        some (1000 * digVal a + 100 * digVal b + 10 * digVal c + digVal d, r)
      else none
  | _ => none

/-- Modelled from the spec: the template matcher of the external arrow
library (arrow.get in filter_datetime, not part of this repository).
A template is matched at the head of l against the whitespace
normalized text; one-or-two-digit fields are greedy with backtracking
like the regex the library builds; matched fields are recorded in the
parts, and the text is allowed to continue after the match. -/
def matchFmt : List FTok → List Char → DParts → Option DParts
  | [], _, p => some p
  | FTok.lit c :: ts, l, p =>
      match l with
      | c2 :: r => if c2 = c then matchFmt ts r p else none
      | [] => none
  | FTok.DD :: ts, l, p =>
      match dig2 l with
      | some vr => matchFmt ts vr.2 { p with day := vr.1 }
      | none => none
  | FTok.D :: ts, l, p =>
      match dig2 l with
      | some vr =>
          match matchFmt ts vr.2 { p with day := vr.1 } with
          | some q => some q
          | none =>
              match dig1 l with
              | some vr1 => matchFmt ts vr1.2 { p with day := vr1.1 }
              | none => none
      | none =>
          match dig1 l with
          | some vr1 => matchFmt ts vr1.2 { p with day := vr1.1 }
          | none => none
  | FTok.MM :: ts, l, p =>
      match dig2 l with
      | some vr => matchFmt ts vr.2 { p with month := vr.1 }
      | none => none
  | FTok.M :: ts, l, p =>
      match dig2 l with
      | some vr =>
          match matchFmt ts vr.2 { p with month := vr.1 } with
          | some q => some q
          | none =>
              match dig1 l with
              | some vr1 => matchFmt ts vr1.2 { p with month := vr1.1 }
              | none => none
      | none =>
          match dig1 l with
          | some vr1 => matchFmt ts vr1.2 { p with month := vr1.1 }
          | none => none
  | FTok.YYYY :: ts, l, p =>
      match dig4 l with
      | some vr => matchFmt ts vr.2 { p with year := vr.1 }
      | none => none
  | FTok.HH :: ts, l, p =>
      match dig2 l with
      | some vr => matchFmt ts vr.2 { p with hour := vr.1 }
      | none => none
  | FTok.H :: ts, l, p =>
      match dig2 l with
      | some vr =>
          match matchFmt ts vr.2 { p with hour := vr.1 } with
          | some q => some q
          | none =>
              match dig1 l with
              | some vr1 => matchFmt ts vr1.2 { p with hour := vr1.1 }
              | none => none
      | none =>
          match dig1 l with
          | some vr1 => matchFmt ts vr1.2 { p with hour := vr1.1 }
          | none => none
  | FTok.mm :: ts, l, p =>
      match dig2 l with
      | some vr => matchFmt ts vr.2 { p with minute := vr.1 }
      | none => none
  | FTok.m :: ts, l, p =>
      match dig2 l with
      | some vr =>
          match matchFmt ts vr.2 { p with minute := vr.1 } with
          | some q => some q
          | none =>
              match dig1 l with
              | some vr1 => matchFmt ts vr1.2 { p with minute := vr1.1 }
              | none => none
      | none =>
          match dig1 l with
          | some vr1 => matchFmt ts vr1.2 { p with minute := vr1.1 }
          | none => none

/-- Modelled from the spec: locate a template anywhere in the text, as
the library searches the whole string; positions are attempted from
the left and the first matching one wins. -/
def searchFmt (f : List FTok) : List Char → Option DParts
  | [] => matchFmt f [] DParts.init
  | c :: rest =>
      match matchFmt f (c :: rest) DParts.init with
      | some p => some p
      | none => searchFmt f rest

/-- Number of days in a month of the proleptic Gregorian calendar, as
validated by the Python datetime constructor. -/
def daysInMonth (y mo : Nat) : Nat :=
  if mo = 2 then (if (y % 4 = 0 ∧ ¬ y % 100 = 0) ∨ y % 400 = 0 then 29 else 28)
  else if mo = 4 ∨ mo = 6 ∨ mo = 9 ∨ mo = 11 then 30 else 31

/-- Modelled from the spec: building the aware datetime from matched
parts, with the range validation the Python datetime constructor
performs; an out-of-range field (such as day 33) is a construction
error, not a match failure.  The zone is the fixed deployment zone. -/
def mkDateTime (p : DParts) : Option PyDateTime :=
  if 1 ≤ p.year ∧ p.year ≤ 9999 ∧ 1 ≤ p.month ∧ p.month ≤ 12 ∧
      1 ≤ p.day ∧ p.day ≤ daysInMonth p.year p.month ∧
      p.hour ≤ 23 ∧ p.minute ≤ 59 then
    some ⟨p.year, p.month, p.day, p.hour, p.minute, "Europe/Helsinki"⟩
  else none

/-- Modelled from the spec: one arrow.get call over an ordered list of
templates.  Templates are tried in order; the first template whose
pattern is located in the text decides the call: its parts are built
into a datetime, and if that construction fails the whole call fails
(the construction error aborts the remaining templates, which is why
filter_datetime also catches it). -/
def parsePhase : List (List FTok) → List Char → Option PyDateTime
  | [], _ => none
  | f :: fs, l =>
      match searchFmt f l with
      | some p => mkDateTime p
      | none => parsePhase fs l

/-- Collapse every whitespace run to a single space, the whitespace
normalization applied before template matching. -/
def collapseWs : List Char → List Char
  | [] => []
  | [c] => [if isWs c then ' ' else c]
  | c :: d :: rest =>
      if isWs c ∧ isWs d then collapseWs (d :: rest)
      else (if isWs c then ' ' else c) :: collapseWs (d :: rest)

/-- Whitespace normalization: collapse runs and strip the ends. -/
def normWs (l : List Char) : List Char := pyStrip (collapseWs l)

/-- The date templates of filter_datetime, in source order. -/
def date_formats : List (List FTok) :=
  [[FTok.DD, FTok.lit '.', FTok.MM, FTok.lit '.', FTok.YYYY],
   [FTok.DD, FTok.lit '.', FTok.M, FTok.lit '.', FTok.YYYY],
   [FTok.D, FTok.lit '.', FTok.MM, FTok.lit '.', FTok.YYYY],
   [FTok.D, FTok.lit '.', FTok.M, FTok.lit '.', FTok.YYYY]]

/-- The time templates of filter_datetime, in source order. -/
def time_formats : List (List FTok) :=
  [[FTok.HH, FTok.lit ':', FTok.mm], [FTok.HH, FTok.lit '.', FTok.mm],
   [FTok.HH, FTok.lit ':', FTok.m], [FTok.HH, FTok.lit '.', FTok.m],
   [FTok.H, FTok.lit ':', FTok.mm], [FTok.H, FTok.lit '.', FTok.mm],
   [FTok.H, FTok.lit ':', FTok.m], [FTok.H, FTok.lit '.', FTok.m]]

/-- The combined date-plus-time templates, the itertools product in
date-major order with a single space between the two parts. -/
def datetime_formats : List (List FTok) :=
  date_formats.flatMap (fun d => time_formats.map (fun t => d ++ [FTok.lit ' '] ++ t))

/-- filter_datetime from src/tenere/main.py: first try every combined
date-plus-time template, then fall back to the date-only templates
(whose time of day stays at the zero default), and finally yield none;
both template-miss and construction errors fall through to the next
phase, matching the except clauses of the source. -/
def filter_datetime (text : String) : Option PyDateTime :=
  match parsePhase datetime_formats (normWs text.data) with
  | some dt => some dt
  | none => parsePhase date_formats (normWs text.data)

/-- FuelingInputModel from src/tenere/main.py. -/
structure FuelingInputModel where
  date : PyDateTime
  fuel_litres : PFloat
  distance_km : PFloat
  cost_euros : PFloat
deriving DecidableEq

/-- FuelingInputModel.from_text: extract the date (falling back to the
caller-supplied default when the extractor yields none, which is what
the or-expression of the source does, aware datetimes always being
truthy) and the three suffixed quantities. -/
def FuelingInputModel.from_text (text : String) (default_date : PyDateTime) :
    FuelingInputModel :=
  { date := (filter_datetime text).getD default_date
    fuel_litres := filter_litres text
    distance_km := filter_km text
    cost_euros := filter_euros text }

/-- Is this value the nan sentinel, as math.isnan reports. -/
def PFloat.isNan : PFloat → Bool
  | PFloat.nan => true
  | _ => false

/-- The dunder bool of FuelingInputModel: false exactly when all three
metrics are nan. -/
def FuelingInputModel.toBool (mo : FuelingInputModel) : Bool :=
  !(mo.fuel_litres.isNan && mo.distance_km.isNan && mo.cost_euros.isNan)

/-- The characters of an optional separator-and-fraction part. -/
def fracChars : Option (Char × List Char) → List Char
  | none => []
  | some cf => cf.1 :: cf.2

/-- The same characters after comma replacement: the separator becomes
a dot. -/
def dotFracChars : Option (Char × List Char) → List Char
  | none => []
  | some cf => '.' :: cf.2

/-- A structured numeric literal of the claim grammar: an optional
sign, integer digits, and an optional separator with fraction digits.
This is the spec-side representation over which the universal claims
about number strings are stated. -/
structure GNum where
  sign : Option Char
  int : List Char
  frac : Option (Char × List Char)

/-- Well-formedness of the literal: the sign character is plus or
minus, the integer digits are a nonempty digit list, and the fraction
part carries a separator character and a (possibly empty) digit
list. -/
def GNum.ok (n : GNum) : Bool :=
  (match n.sign with | none => true | some s => s = '+' || s = '-') &&
  (!n.int.isEmpty) && n.int.all isDig &&
  (match n.frac with | none => true | some cf => isSep cf.1 && cf.2.all isDig)

/-- The strict grammar of the claims: additionally, a separator must
be followed by at least one fraction digit. -/
def GNum.strict (n : GNum) : Bool :=
  n.ok && (match n.frac with | none => true | some cf => !cf.2.isEmpty)

/-- The characters of the literal. -/
def GNum.chars (n : GNum) : List Char :=
  n.sign.toList ++ n.int ++ fracChars n.frac

/-- The unsigned mathematical value of the literal. -/
def GNum.mag (n : GNum) : ℚ :=
  (digitsVal n.int : ℚ) +
    (match n.frac with | none => 0 | some cf => (digitsVal cf.2 : ℚ) / 10 ^ cf.2.length)

/-- The mathematical value of the literal, comma read as dot. -/
def GNum.val (n : GNum) : ℚ :=
  if n.sign = some '-' then -n.mag else n.mag

/-- u is one concrete unit variant matched by the suffix regex,
case-insensitively: a case variant of the literal, or a single
character of the class. -/
def Sfx.isVariantB : Sfx → List Char → Bool
  | Sfx.lit s, u =>
      (!s.isEmpty) && (u.length == s.length) &&
        (List.map foldc u == List.map foldc s)
  | Sfx.cls cs, u =>
      match u with
      | [c] => List.contains (List.map foldc cs) (foldc c)
      | _ => false

/-- Tokens that carry no time-of-day field. -/
def dateOnlyTok : FTok → Bool
  | FTok.HH => false
  | FTok.H => false
  | FTok.mm => false
  | FTok.m => false
  | _ => true

/-- A template made only of date fields and literals. -/
def dateOnlyFmt (f : List FTok) : Bool := f.all dateOnlyTok

/-- Number of decimal-separator characters (comma or dot) in a list. -/
def sepCount (l : List Char) : Nat := List.countP (fun c => isSep c) l

/-! Generic lemmas about the small combinators. -/

theorem anyLe_eq_true_of {q : Nat → Bool} {n j : Nat} (hj : j ≤ n)
    (h : q j = true) : anyLe n q = true := by
  induction n with
  | zero =>
      have hj0 : j = 0 := Nat.le_zero.mp hj
      subst hj0
      simpa [anyLe] using h
  | succ k ih =>
      rcases Nat.eq_or_lt_of_le hj with h1 | h1
      · subst h1
        simp [anyLe, h]
      · have := ih (Nat.lt_succ_iff.mp h1)
        simp [anyLe, this]

theorem anyLe_eq_false {q : Nat → Bool} {n : Nat}
    (h : ∀ j, j ≤ n → q j = false) : anyLe n q = false := by
  induction n with
  | zero => simpa [anyLe] using h 0 (Nat.le_refl 0)
  | succ k ih =>
      have hk := ih (fun j hj => h j (Nat.le_trans hj (Nat.le_succ k)))
      simp [anyLe, h (k + 1) (Nat.le_refl _), hk]

theorem greedyFind_eq_some {p : Nat → Bool} {n d : Nat} (hd : d ≤ n)
    (hfail : ∀ e, d < e → e ≤ n → p e = false) (hok : p d = true) :
    greedyFind n p = some d := by
  induction n with
  | zero =>
      have hd0 : d = 0 := Nat.le_zero.mp hd
      subst hd0
      simp [greedyFind, hok]
  | succ k ih =>
      rcases Nat.eq_or_lt_of_le hd with h1 | h1
      · subst h1
        simp [greedyFind, hok]
      · have hdk : d ≤ k := Nat.lt_succ_iff.mp h1
        have hf : p (k + 1) = false := hfail _ (Nat.lt_succ_of_le hdk) (Nat.le_refl _)
        have := ih hdk (fun e he1 he2 => hfail e he1 (Nat.le_trans he2 (Nat.le_succ k)))
        simp [greedyFind, hf, this]

theorem greedyFind_eq_none {p : Nat → Bool} {n : Nat}
    (h : ∀ d, d ≤ n → p d = false) : greedyFind n p = none := by
  induction n with
  | zero => simp [greedyFind, h 0 (Nat.le_refl 0)]
  | succ k ih =>
      have hk := ih (fun d hd => h d (Nat.le_trans hd (Nat.le_succ k)))
      simp [greedyFind, h (k + 1) (Nat.le_refl _), hk]

theorem greedyFind1_eq_some {p : Nat → Bool} {n d : Nat} (h1 : 1 ≤ d) (hd : d ≤ n)
    (hfail : ∀ e, d < e → e ≤ n → p e = false) (hok : p d = true) :
    greedyFind1 n p = some d := by
  induction n with
  | zero => exact absurd (Nat.le_trans h1 hd) (by simp)
  | succ k ih =>
      rcases Nat.eq_or_lt_of_le hd with h2 | h2
      · subst h2
        simp [greedyFind1, hok]
      · have hdk : d ≤ k := Nat.lt_succ_iff.mp h2
        have hf : p (k + 1) = false := hfail _ (Nat.lt_succ_of_le hdk) (Nat.le_refl _)
        have := ih hdk (fun e he1 he2 => hfail e he1 (Nat.le_trans he2 (Nat.le_succ k)))
        simp [greedyFind1, hf, this]

theorem countLeading_append {p : Char → Bool} {xs : List Char} (ys : List Char)
    (h : ∀ c ∈ xs, p c = true) :
    countLeading p (xs ++ ys) = xs.length + countLeading p ys := by
  induction xs with
  | nil => simp
  | cons c cs ih =>
      have hc : p c = true := h c (List.mem_cons_self c cs)
      have ih2 := ih (fun x hx => h x (List.mem_cons_of_mem c hx))
      simp [countLeading, hc, ih2]
      omega

theorem countLeading_eq_zero {p : Char → Bool} {l : List Char}
    (h : ∀ c, l.head? = some c → p c = false) : countLeading p l = 0 := by
  cases l with
  | nil => rfl
  | cons c cs => simp [countLeading, h c rfl]

theorem mem_take_countLeading {p : Char → Bool} {l : List Char} {k : Nat}
    (hk : k ≤ countLeading p l) : ∀ c ∈ l.take k, p c = true := by
  induction l generalizing k with
  | nil => simp
  | cons c cs ih =>
      cases k with
      | zero => simp
      | succ k0 =>
          by_cases hc : p c
          · intro x hx
            rw [List.take_succ_cons] at hx
            rcases List.mem_cons.mp hx with h1 | h1
            · subst h1; exact hc
            · have hk2 : k0 ≤ countLeading p cs := by
                simp [countLeading, hc] at hk
                omega
              exact ih hk2 x h1
          · simp [countLeading, hc] at hk

/-! Facts about the character classes. -/

theorem isDig_facts {c : Char} (h : isDig c = true) :
    isSep c = false ∧ isWs c = false ∧ c ≠ '+' ∧ c ≠ '-' ∧ c ≠ ',' ∧ c ≠ '.' ∧
      c ≠ '_' ∧ foldc c ≠ 'i' ∧ foldc c ≠ 'n' ∧ foldc c = c := by
  have hm : c ∈ ['0','1','2','3','4','5','6','7','8','9'] := by
    simpa [isDig] using List.elem_iff.mp h
  simp only [List.mem_cons, List.not_mem_nil, or_false] at hm
  rcases hm with rfl | rfl | rfl | rfl | rfl | rfl | rfl | rfl | rfl | rfl <;>
    exact ⟨by decide, by decide, by decide, by decide, by decide, by decide,
      by decide, by decide, by decide, by decide⟩

theorem isSep_facts {c : Char} (h : isSep c = true) :
    (c = ',' ∨ c = '.') ∧ isWs c = false ∧ isDig c = false ∧
      foldc c ≠ 'i' ∧ foldc c ≠ 'n' ∧ (if c = ',' then '.' else c) = '.' ∧
      c ≠ '_' := by
  have hm : c ∈ [',', '.'] := by
    simpa [isSep] using List.elem_iff.mp h
  simp only [List.mem_cons, List.not_mem_nil, or_false] at hm
  rcases hm with rfl | rfl <;>
    exact ⟨by decide, by decide, by decide, by decide, by decide, by decide,
      by decide⟩

theorem isWs_facts {c : Char} (h : isWs c = true) :
    c ≠ ',' ∧ isDig c = false ∧ isSep c = false := by
  have hm : c ∈ [' ', '\t', '\n', '\r', '\x0b', '\x0c'] := by
    simpa [isWs] using List.elem_iff.mp h
  simp only [List.mem_cons, List.not_mem_nil, or_false] at hm
  rcases hm with rfl | rfl | rfl | rfl | rfl | rfl <;>
    exact ⟨by decide, by decide, by decide⟩

/-! Lemmas about stripping and comma replacement. -/

theorem dropWhile_eq_self_of_head {p : Char → Bool} {l : List Char}
    (h : ∀ c, l.head? = some c → p c = false) : l.dropWhile p = l := by
  cases l with
  | nil => rfl
  | cons c cs => simp [List.dropWhile_cons, h c rfl]

theorem dropWhile_append_all {p : Char → Bool} {xs ys : List Char}
    (hx : ∀ c ∈ xs, p c = true) (hy : ∀ c, ys.head? = some c → p c = false) :
    (xs ++ ys).dropWhile p = ys := by
  induction xs with
  | nil => simpa using dropWhile_eq_self_of_head hy
  | cons c cs ih =>
      have hc := hx c (List.mem_cons_self c cs)
      have := ih (fun x hx2 => hx x (List.mem_cons_of_mem c hx2))
      simp [List.dropWhile_cons, hc, this]

theorem pyStrip_sandwich {w1 m w2 : List Char} (hm : m ≠ [])
    (h1 : ∀ c ∈ w1, isWs c = true) (h2 : ∀ c ∈ w2, isWs c = true)
    (hh : ∀ c, m.head? = some c → isWs c = false)
    (hl : ∀ c, m.getLast? = some c → isWs c = false) :
    pyStrip (w1 ++ m ++ w2) = m := by
  unfold pyStrip
  have e1 : (w1 ++ m ++ w2).dropWhile isWs = m ++ w2 := by
    rw [List.append_assoc]
    refine dropWhile_append_all h1 ?_
    cases m with
    | nil => exact absurd rfl hm
    | cons a m2 =>
        intro c hc
        simp only [List.cons_append, List.head?_cons, Option.some.injEq] at hc
        subst hc
        exact hh a rfl
  have e2 : (m ++ w2).reverse.dropWhile isWs = m.reverse := by
    rw [List.reverse_append]
    refine dropWhile_append_all (fun c hc => h2 c (List.mem_reverse.mp hc)) ?_
    intro c hc
    rw [List.head?_reverse] at hc
    exact hl c hc
  rw [e1, e2, List.reverse_reverse]

theorem replaceComma_append (xs ys : List Char) :
    replaceComma (xs ++ ys) = replaceComma xs ++ replaceComma ys := by
  simp [replaceComma]

theorem replaceComma_eq_self {l : List Char} (h : ∀ c ∈ l, c ≠ ',') :
    replaceComma l = l := by
  induction l with
  | nil => rfl
  | cons c cs ih =>
      have hc := h c (List.mem_cons_self c cs)
      have := ih (fun x hx => h x (List.mem_cons_of_mem c hx))
      simp [replaceComma, hc] at this ⊢
      exact this

/-! Lemmas about the float grammar parser on well-formed inputs. -/

theorem digitsRest_stop {l : List Char}
    (h : ∀ c, l.head? = some c → isDig c = false ∧ c ≠ '_') :
    digitsRest l = ([], l) := by
  cases l with
  | nil => rfl
  | cons c cs =>
      obtain ⟨h1, h2⟩ := h c rfl
      rw [digitsRest.eq_def]
      simp [h1, h2]

theorem digitsRest_exact {ds r : List Char} (hd : ∀ c ∈ ds, isDig c = true)
    (hr : ∀ c, r.head? = some c → isDig c = false ∧ c ≠ '_') :
    digitsRest (ds ++ r) = (ds, r) := by
  induction ds with
  | nil => exact digitsRest_stop hr
  | cons c cs ih =>
      have hc := hd c (List.mem_cons_self c cs)
      have ih2 := ih (fun x hx => hd x (List.mem_cons_of_mem c hx))
      rw [List.cons_append, digitsRest.eq_def]
      simp [hc, ih2]

theorem digitPart_exact {ds r : List Char} (hne : ds ≠ [])
    (hd : ∀ c ∈ ds, isDig c = true)
    (hr : ∀ c, r.head? = some c → isDig c = false ∧ c ≠ '_') :
    digitPart (ds ++ r) = some (ds, r) := by
  cases ds with
  | nil => exact absurd rfl hne
  | cons c cs =>
      have hc := hd c (List.mem_cons_self c cs)
      have he : digitsRest (cs ++ r) = (cs, r) :=
        digitsRest_exact (fun x hx => hd x (List.mem_cons_of_mem c hx)) hr
      simp [digitPart, hc, he]

theorem digitPart_none {l : List Char}
    (h : ∀ c, l.head? = some c → isDig c = false) : digitPart l = none := by
  cases l with
  | nil => rfl
  | cons c cs => simp [digitPart, h c rfl]

theorem parseNumber_int {I : List Char} (hne : I ≠ [])
    (hd : ∀ c ∈ I, isDig c = true) :
    parseNumber I = some ((digitsVal I : ℚ), []) := by
  have hp : digitPart (I ++ []) = some (I, []) :=
    digitPart_exact hne hd (by intro c hc; cases hc)
  rw [List.append_nil] at hp
  simp [parseNumber, hp]

theorem parseNumber_frac {I F : List Char} (hne : I ≠ [])
    (hdI : ∀ c ∈ I, isDig c = true) (hdF : ∀ c ∈ F, isDig c = true) :
    parseNumber (I ++ '.' :: F) =
      some ((digitsVal I : ℚ) + (digitsVal F : ℚ) / 10 ^ F.length, []) := by
  have hp : digitPart (I ++ '.' :: F) = some (I, '.' :: F) :=
    digitPart_exact hne hdI
      (by
        intro c hc
        simp only [List.head?_cons, Option.some.injEq] at hc
        subst hc
        exact ⟨by decide, by decide⟩)
  cases F with
  | nil =>
      have hF : digitPart ([] : List Char) = none := rfl
      simp [parseNumber, hp, hF, digitsVal]
  | cons f F2 =>
      have hF : digitPart ((f :: F2) ++ []) = some (f :: F2, []) :=
        digitPart_exact (by simp) hdF (by intro c hc; cases hc)
      rw [List.append_nil] at hF
      simp [parseNumber, hp, hF]

theorem pyFloatBody_num {neg : Bool} {I sepD : List Char} {q : ℚ}
    (hne : I ≠ []) (hdI : ∀ c ∈ I, isDig c = true)
    (hp : parseNumber (I ++ sepD) = some (q, [])) :
    pyFloatBody neg (I ++ sepD) = some (PFloat.fin (if neg then -q else q)) := by
  cases I with
  | nil => exact absurd rfl hne
  | cons c cs =>
      have hc := hdI c (List.mem_cons_self c cs)
      have hci : foldc c ≠ 'i' := (isDig_facts hc).2.2.2.2.2.2.2.1
      have hcn : foldc c ≠ 'n' := (isDig_facts hc).2.2.2.2.2.2.2.2.1
      have hinf : ¬(((c :: cs) ++ sepD).map foldc = ['i','n','f'] ∨
          ((c :: cs) ++ sepD).map foldc = ['i','n','f','i','n','i','t','y']) := by
        intro hcontra
        rcases hcontra with h1 | h1 <;>
          · rw [List.cons_append, List.map_cons] at h1
            exact absurd (List.head_eq_of_cons_eq h1) (by assumption)
      have hnan : ¬(((c :: cs) ++ sepD).map foldc = ['n','a','n']) := by
        intro h1
        rw [List.cons_append, List.map_cons] at h1
        exact absurd (List.head_eq_of_cons_eq h1) hcn
      rw [pyFloatBody, if_neg hinf, if_neg hnan, hp]
      simp [parseExp]

theorem pyStrip_eq_self {m : List Char}
    (hh : ∀ c, m.head? = some c → isWs c = false)
    (hl : ∀ c, m.getLast? = some c → isWs c = false) : pyStrip m = m := by
  unfold pyStrip
  rw [dropWhile_eq_self_of_head hh]
  have h2 : m.reverse.dropWhile isWs = m.reverse := by
    refine dropWhile_eq_self_of_head ?_
    intro c hc
    rw [List.head?_reverse] at hc
    exact hl c hc
  rw [h2, List.reverse_reverse]

theorem getLast?_append_right {l l2 : List Char} (h : l2 ≠ []) :
    (l ++ l2).getLast? = l2.getLast? := by
  rw [List.getLast?_append]
  cases hgl : l2.getLast? with
  | none => exact absurd (List.getLast?_eq_none_iff.mp hgl) h
  | some x => rfl

theorem gnum_ok_parts {n : GNum} (h : n.ok = true) :
    (n.sign = none ∨ n.sign = some '+' ∨ n.sign = some '-') ∧ n.int ≠ [] ∧
      (∀ c ∈ n.int, isDig c = true) ∧
      (∀ cf, n.frac = some cf → isSep cf.1 = true ∧ ∀ c ∈ cf.2, isDig c = true) := by
  obtain ⟨sgn, I, fr⟩ := n
  simp only [GNum.ok, Bool.and_eq_true] at h
  obtain ⟨⟨⟨hs, hne⟩, hdig⟩, hfr⟩ := h
  refine ⟨?_, ?_, ?_, ?_⟩
  · cases sgn with
    | none => exact Or.inl rfl
    | some s =>
        simp only [Bool.or_eq_true, decide_eq_true_eq] at hs
        rcases hs with h1 | h1
        · exact Or.inr (Or.inl (by simp [h1]))
        · exact Or.inr (Or.inr (by simp [h1]))
  · simpa using hne
  · simpa using List.all_eq_true.mp hdig
  · intro cf hcf
    cases fr with
    | none => cases hcf
    | some cf2 =>
        simp only at hcf
        cases hcf
        simp only [Bool.and_eq_true] at hfr
        exact ⟨hfr.1, List.all_eq_true.mp hfr.2⟩

theorem fracChars_none : fracChars none = [] := rfl

theorem fracChars_some (cf : Char × List Char) :
    fracChars (some cf) = cf.1 :: cf.2 := rfl

theorem dotFracChars_none : dotFracChars none = [] := rfl

theorem dotFracChars_some (cf : Char × List Char) :
    dotFracChars (some cf) = '.' :: cf.2 := rfl

theorem replaceComma_gnum {n : GNum} (h : n.ok = true) :
    replaceComma n.chars = n.sign.toList ++ n.int ++
      dotFracChars n.frac := by
  obtain ⟨hsign, hne, hdig, hfr⟩ := gnum_ok_parts h
  unfold GNum.chars
  rw [replaceComma_append, replaceComma_append]
  have e1 : replaceComma n.sign.toList = n.sign.toList := by
    refine replaceComma_eq_self ?_
    rcases hsign with h1 | h1 | h1 <;> rw [h1] <;> intro c hc <;> simp at hc
    · subst hc; decide
    · subst hc; decide
  have e2 : replaceComma n.int = n.int :=
    replaceComma_eq_self (fun c hc => (isDig_facts (hdig c hc)).2.2.2.2.1)
  rw [e1, e2]
  cases hf : n.frac with
  | none => rfl
  | some cf =>
      obtain ⟨hsep, hdF⟩ := hfr cf hf
      have e3 : replaceComma (cf.1 :: cf.2) = '.' :: cf.2 := by
        have hF : replaceComma cf.2 = cf.2 :=
          replaceComma_eq_self (fun c hc => (isDig_facts (hdF c hc)).2.2.2.2.1)
        simp only [replaceComma, List.map_cons]
        rw [(isSep_facts hsep).2.2.2.2.2.1]
        simpa [replaceComma] using hF
      rw [fracChars_some, dotFracChars_some, e3]

theorem parseNumber_gnum {n : GNum} (h : n.ok = true) :
    parseNumber (n.int ++ dotFracChars n.frac) =
      some (n.mag, []) := by
  obtain ⟨hsign, hne, hdig, hfr⟩ := gnum_ok_parts h
  cases hf : n.frac with
  | none =>
      have e := parseNumber_int hne hdig
      rw [dotFracChars_none, List.append_nil, e]
      simp [GNum.mag, hf]
  | some cf =>
      obtain ⟨hsep, hdF⟩ := hfr cf hf
      have e := parseNumber_frac hne hdig hdF
      rw [dotFracChars_some, e]
      simp [GNum.mag, hf]

theorem pyFloatCore_gnum {n : GNum} (h : n.ok = true) :
    pyFloatCore (n.sign.toList ++ n.int ++
        dotFracChars n.frac) =
      some (PFloat.fin n.val) := by
  obtain ⟨hsign, hne, hdig, hfr⟩ := gnum_ok_parts h
  have hq := parseNumber_gnum h
  have hbody : ∀ neg : Bool,
      pyFloatBody neg (n.int ++ dotFracChars n.frac) =
        some (PFloat.fin (if neg then -n.mag else n.mag)) :=
    fun neg => pyFloatBody_num hne hdig hq
  rcases hsign with h1 | h1 | h1 <;> rw [h1]
  · have hcore : pyFloatCore (n.int ++
        dotFracChars n.frac) =
        pyFloatBody false (n.int ++
          dotFracChars n.frac) := by
      cases hI : n.int with
      | nil => exact absurd hI hne
      | cons c cs =>
          have hfacts := isDig_facts (hdig c (by rw [hI]; exact List.mem_cons_self c cs))
          rw [List.cons_append]
          simp [pyFloatCore, hfacts.2.2.1, hfacts.2.2.2.1]
    simp only [Option.toList, List.nil_append]
    rw [hcore, hbody false]
    simp [GNum.val, h1]
  · simp only [Option.toList, List.cons_append, List.nil_append]
    rw [show pyFloatCore ('+' :: (n.int ++
        dotFracChars n.frac)) =
      pyFloatBody false (n.int ++
        dotFracChars n.frac) by simp [pyFloatCore]]
    rw [hbody false]
    simp [GNum.val, h1]
  · simp only [Option.toList, List.cons_append, List.nil_append]
    rw [show pyFloatCore ('-' :: (n.int ++
        dotFracChars n.frac)) =
      pyFloatBody true (n.int ++
        dotFracChars n.frac) by simp [pyFloatCore]]
    rw [hbody true]
    simp [GNum.val, h1]

theorem gnum_repl_props {n : GNum} (h : n.ok = true) :
    (n.sign.toList ++ n.int ++
        dotFracChars n.frac) ≠ [] ∧
    (∀ c, (n.sign.toList ++ n.int ++
        dotFracChars n.frac).head? = some c →
        isWs c = false) ∧
    (∀ c, (n.sign.toList ++ n.int ++
        dotFracChars n.frac).getLast? = some c →
        isWs c = false) := by
  obtain ⟨hsign, hne, hdig, hfr⟩ := gnum_ok_parts h
  refine ⟨by simp [hne], ?_, ?_⟩
  · intro c hc
    rcases hsign with h1 | h1 | h1 <;> rw [h1] at hc
    · rw [Option.toList, List.nil_append] at hc
      cases hI : n.int with
      | nil => exact absurd hI hne
      | cons a I2 =>
          rw [hI, List.cons_append, List.head?_cons, Option.some.injEq] at hc
          rw [← hc]
          exact (isDig_facts (hdig a (by rw [hI]; exact List.mem_cons_self a I2))).2.1
    · simp only [Option.toList, List.cons_append, List.nil_append, List.head?_cons,
        Option.some.injEq] at hc
      subst hc
      decide
    · simp only [Option.toList, List.cons_append, List.nil_append, List.head?_cons,
        Option.some.injEq] at hc
      subst hc
      decide
  · intro c hc
    cases hf : n.frac with
    | none =>
        rw [hf, dotFracChars_none] at hc
        simp only [List.append_nil] at hc
        rw [getLast?_append_right hne] at hc
        exact (isDig_facts (hdig c (List.mem_of_mem_getLast? hc))).2.1
    | some cf =>
        obtain ⟨hsep, hdF⟩ := hfr cf hf
        rw [hf, dotFracChars_some] at hc
        rw [getLast?_append_right (by simp)] at hc
        have hc2 : ('.' :: cf.2).getLast? = some c := hc
        cases hF : cf.2 with
        | nil =>
            rw [hF] at hc2
            simp only [List.getLast?_singleton, Option.some.injEq] at hc2
            rw [← hc2]
            decide
        | cons f F2 =>
            rw [hF, show ('.' :: (f :: F2)) = ['.'] ++ (f :: F2) by rfl,
              getLast?_append_right (by simp)] at hc2
            have hmem : c ∈ cf.2 := by
              rw [hF]
              exact List.mem_of_mem_getLast? hc2
            exact (isDig_facts (hdF c hmem)).2.1

theorem to_float_gnum_ws {n : GNum} (w1 w2 : List Char) (h : n.ok = true)
    (hw1 : ∀ c ∈ w1, isWs c = true) (hw2 : ∀ c ∈ w2, isWs c = true) :
    to_float (String.mk (w1 ++ n.chars ++ w2)) = PFloat.fin n.val := by
  obtain ⟨hmne, hmh, hml⟩ := gnum_repl_props h
  have hwc1 : replaceComma w1 = w1 :=
    replaceComma_eq_self (fun c hc => (isWs_facts (hw1 c hc)).1)
  have hwc2 : replaceComma w2 = w2 :=
    replaceComma_eq_self (fun c hc => (isWs_facts (hw2 c hc)).1)
  unfold to_float
  rw [show (String.mk (w1 ++ n.chars ++ w2)).data = w1 ++ n.chars ++ w2 from rfl,
    replaceComma_append, replaceComma_append, hwc1, hwc2, replaceComma_gnum h,
    pyStrip_sandwich hmne hw1 hw2 hmh hml, pyFloatCore_gnum h]

theorem to_float_gnum {n : GNum} (h : n.ok = true) :
    to_float (String.mk n.chars) = PFloat.fin n.val := by
  have := to_float_gnum_ws [] [] h
    (by intro c hc; cases hc) (by intro c hc; cases hc)
  simpa using this

/-! Lemmas about the suffix search on a number followed by a unit. -/

theorem isVariant_facts {sfx : Sfx} {u : List Char} (h : sfx.isVariantB u = true) :
    u ≠ [] ∧ Sfx.matchesAt sfx u = true ∧
      ∀ l, Sfx.matchesAt sfx l = true → u.length ≤ l.length := by
  cases sfx with
  | lit s =>
      simp only [Sfx.isVariantB, Bool.and_eq_true, beq_iff_eq] at h
      obtain ⟨⟨hse, hlen⟩, hfold⟩ := h
      have hsne : s ≠ [] := by simpa using hse
      have hune : u ≠ [] := by
        intro hu
        rw [hu] at hlen
        exact hsne (List.length_eq_zero.mp hlen.symm)
      refine ⟨hune, ?_, ?_⟩
      · simp only [Sfx.matchesAt, Bool.and_eq_true, decide_eq_true_eq]
        constructor
        · omega
        · rw [← hlen, List.take_length]
          exact hfold
      · intro l hl
        simp only [Sfx.matchesAt, Bool.and_eq_true, decide_eq_true_eq] at hl
        omega
  | cls cs =>
      cases u with
      | nil => simp [Sfx.isVariantB] at h
      | cons c u2 =>
          cases u2 with
          | nil =>
              simp only [Sfx.isVariantB] at h
              refine ⟨by simp, ?_, ?_⟩
              · simpa [Sfx.matchesAt] using h
              · intro l hl
                cases l with
                | nil => simp [Sfx.matchesAt] at hl
                | cons a l2 => simp
          | cons c2 u3 => simp [Sfx.isVariantB] at h

theorem wsSfxOk_short {sfx : Sfx} {u l : List Char}
    (hlen : ∀ l2, Sfx.matchesAt sfx l2 = true → u.length ≤ l2.length)
    (hshort : l.length < u.length) : wsSfxOk sfx l = false := by
  unfold wsSfxOk
  apply anyLe_eq_false
  intro j hj
  cases h2 : Sfx.matchesAt sfx (l.drop j) with
  | false => rfl
  | true =>
      have := hlen _ h2
      rw [List.length_drop] at this
      omega

theorem wsSfxOk_self {sfx : Sfx} {u : List Char}
    (hm : Sfx.matchesAt sfx u = true) : wsSfxOk sfx u = true := by
  unfold wsSfxOk
  refine anyLe_eq_true_of (Nat.zero_le _) ?_
  simpa using hm

theorem fracTail_none {sfx : Sfx} {u r : List Char}
    (hlen : ∀ l2, Sfx.matchesAt sfx l2 = true → u.length ≤ l2.length)
    (hshort : r.length < u.length) : fracTail sfx r = none := by
  unfold fracTail
  rw [greedyFind_eq_none]
  intro d _
  refine wsSfxOk_short hlen ?_
  rw [List.length_drop]
  omega

theorem fracTail_exact {sfx : Sfx} {u F : List Char} (hune : u ≠ [])
    (hm : Sfx.matchesAt sfx u = true)
    (hlen : ∀ l2, Sfx.matchesAt sfx l2 = true → u.length ≤ l2.length)
    (hdF : ∀ c ∈ F, isDig c = true) : fracTail sfx (F ++ u) = some F := by
  have hu1 : 1 ≤ u.length := by
    cases u with
    | nil => exact absurd rfl hune
    | cons a u2 => simp
  unfold fracTail
  have hcount : countLeading isDig (F ++ u) = F.length + countLeading isDig u :=
    countLeading_append u hdF
  have hg : greedyFind (countLeading isDig (F ++ u))
      (fun d => wsSfxOk sfx ((F ++ u).drop d)) = some F.length := by
    rw [hcount]
    refine greedyFind_eq_some (Nat.le_add_right _ _) ?_ ?_
    · intro e he1 _
      have hd : (F ++ u).drop e = u.drop (e - F.length) := by
        have h3 : e = F.length + (e - F.length) := by omega
        rw [h3, List.drop_append]
        congr 1
        omega
      rw [hd]
      refine wsSfxOk_short hlen ?_
      rw [List.length_drop]
      omega
    · rw [List.drop_left]
      exact wsSfxOk_self hm
  rw [hg]
  simp [List.take_left]

theorem fracTail_zero {sfx : Sfx} {u : List Char} (hune : u ≠ [])
    (hm : Sfx.matchesAt sfx u = true)
    (hlen : ∀ l2, Sfx.matchesAt sfx l2 = true → u.length ≤ l2.length) :
    fracTail sfx u = some [] := by
  unfold fracTail
  have hg : greedyFind (countLeading isDig u)
      (fun d => wsSfxOk sfx (u.drop d)) = some 0 := by
    refine greedyFind_eq_some (Nat.zero_le _) ?_ ?_
    · intro e he1 _
      refine wsSfxOk_short hlen ?_
      rw [List.length_drop]
      cases u with
      | nil => exact absurd rfl hune
      | cons a u2 => simp; omega
    · simpa using wsSfxOk_self hm
  rw [hg]
  rfl

theorem sepFracTail_cons (sfx : Sfx) (c : Char) (rest : List Char) :
    sepFracTail sfx (c :: rest) =
      if isSep c = true then
        (match fracTail sfx rest with
         | some g => some (c :: g)
         | none => fracTail sfx (c :: rest))
      else fracTail sfx (c :: rest) := rfl

theorem sepFracTail_short {sfx : Sfx} {u l : List Char}
    (hlen : ∀ l2, Sfx.matchesAt sfx l2 = true → u.length ≤ l2.length)
    (hshort : l.length < u.length) : sepFracTail sfx l = none := by
  cases l with
  | nil =>
      show fracTail sfx [] = none
      exact fracTail_none hlen (by simpa using hshort)
  | cons c rest =>
      rw [sepFracTail_cons]
      by_cases hc : isSep c = true
      · rw [if_pos hc]
        have h1 : fracTail sfx rest = none := by
          refine fracTail_none hlen ?_
          have : rest.length + 1 = (c :: rest).length := by simp
          omega
        have h2 : fracTail sfx (c :: rest) = none := fracTail_none hlen hshort
        rw [h1, h2]
      · rw [if_neg hc]
        exact fracTail_none hlen hshort

theorem sepFracTail_exact {sfx : Sfx} {u : List Char} (hune : u ≠ [])
    (hm : Sfx.matchesAt sfx u = true)
    (hlen : ∀ l2, Sfx.matchesAt sfx l2 = true → u.length ≤ l2.length)
    (fr : Option (Char × List Char))
    (hfr : ∀ cf, fr = some cf → isSep cf.1 = true ∧ ∀ c ∈ cf.2, isDig c = true) :
    sepFracTail sfx (fracChars fr ++ u) =
      some (fracChars fr) := by
  cases fr with
  | none =>
      rw [fracChars_none]
      simp only [List.nil_append]
      cases hu : u with
      | nil => exact absurd hu hune
      | cons c rest =>
          have hzero : fracTail sfx (c :: rest) = some [] := by
            rw [← hu]
            exact fracTail_zero hune hm hlen
          rw [sepFracTail_cons]
          by_cases hc : isSep c = true
          · rw [if_pos hc]
            have h1 : fracTail sfx rest = none := by
              refine fracTail_none hlen ?_
              have h4 : u.length = rest.length + 1 := by rw [hu]; simp
              omega
            rw [h1, hzero]
          · rw [if_neg hc, hzero]
  | some cf =>
      obtain ⟨hsep, hdF⟩ := hfr cf rfl
      rw [fracChars_some]
      simp only [List.cons_append]
      rw [sepFracTail_cons, if_pos hsep, fracTail_exact hune hm hlen hdF]

theorem numCore_exact {sfx : Sfx} {u I : List Char} {fr : Option (Char × List Char)}
    (hune : u ≠ []) (hm : Sfx.matchesAt sfx u = true)
    (hlen : ∀ l2, Sfx.matchesAt sfx l2 = true → u.length ≤ l2.length)
    (hIne : I ≠ []) (hdI : ∀ c ∈ I, isDig c = true)
    (hfr : ∀ cf, fr = some cf → isSep cf.1 = true ∧ ∀ c ∈ cf.2, isDig c = true) :
    numCore sfx (I ++ (fracChars fr ++ u)) =
      some (I ++ fracChars fr) := by
  have hu1 : 1 ≤ u.length := by
    cases u with
    | nil => exact absurd rfl hune
    | cons a u2 => simp
  have hI1 : 1 ≤ I.length := by
    cases I with
    | nil => exact absurd rfl hIne
    | cons a I2 => simp
  have hsep_tail := sepFracTail_exact hune hm hlen fr hfr
  have hcount : countLeading isDig
      (I ++ (fracChars fr ++ u)) =
      I.length + countLeading isDig
        (fracChars fr ++ u) :=
    countLeading_append _ hdI
  have hfail : ∀ e, I.length < e →
      e ≤ I.length + countLeading isDig
        (fracChars fr ++ u) →
      (sepFracTail sfx (List.drop e
        (I ++ (fracChars fr ++ u)))).isSome
        = false := by
    intro e he1 he2
    cases fr with
    | some cf =>
        rw [fracChars_some] at he2
        have hz : countLeading isDig ((cf.1 :: cf.2) ++ u) = 0 := by
          refine countLeading_eq_zero ?_
          intro c hc
          simp only [List.cons_append, List.head?_cons, Option.some.injEq] at hc
          rw [← hc]
          exact (isSep_facts (hfr cf rfl).1).2.2.1
        rw [hz] at he2
        omega
    | none =>
        simp only [fracChars_none, List.nil_append] at he2 ⊢
        have hd : List.drop e (I ++ u) = List.drop (e - I.length) u := by
          have h3 : e = I.length + (e - I.length) := by omega
          rw [h3, List.drop_append]
          congr 1
          omega
        rw [hd, sepFracTail_short hlen]
        · rfl
        · rw [List.length_drop]
          omega
  have hok : (sepFracTail sfx (List.drop I.length
      (I ++ (fracChars fr ++ u)))).isSome
      = true := by
    rw [List.drop_left, hsep_tail]
    rfl
  have hg : greedyFind1 (countLeading isDig
      (I ++ (fracChars fr ++ u)))
      (fun k => (sepFracTail sfx (List.drop k
        (I ++ (fracChars fr ++ u)))).isSome)
      = some I.length := by
    rw [hcount]
    exact greedyFind1_eq_some hI1 (Nat.le_add_right _ _) hfail hok
  unfold numCore
  rw [hg]
  simp only [List.drop_left, hsep_tail, List.take_left]

theorem numAt_cons (sfx : Sfx) (c : Char) (rest : List Char) :
    numAt sfx (c :: rest) =
      if c = '+' ∨ c = '-' then
        (match numCore sfx rest with
         | some g => some (c :: g)
         | none => numCore sfx (c :: rest))
      else numCore sfx (c :: rest) := rfl

theorem numAt_gnum {n : GNum} {sfx : Sfx} {u : List Char} (h : n.ok = true)
    (hune : u ≠ []) (hm : Sfx.matchesAt sfx u = true)
    (hlen : ∀ l2, Sfx.matchesAt sfx l2 = true → u.length ≤ l2.length) :
    numAt sfx (n.chars ++ u) = some n.chars := by
  obtain ⟨hsign, hIne, hdI, hfr⟩ := gnum_ok_parts h
  have hcore := numCore_exact hune hm hlen hIne hdI
    (fun cf hcf => (hfr cf hcf).imp id (fun hd => hd))
  unfold GNum.chars
  rcases hsign with h1 | h1 | h1 <;> rw [h1]
  · simp only [Option.toList, List.nil_append, List.append_assoc]
    cases hI : n.int with
    | nil => exact absurd hI hIne
    | cons a I2 =>
        have hfacts := isDig_facts (hdI a (by rw [hI]; exact List.mem_cons_self a I2))
        rw [List.cons_append, numAt_cons,
          if_neg (by simp [hfacts.2.2.1, hfacts.2.2.2.1]), ← List.cons_append, ← hI]
        exact hcore
  · simp only [Option.toList, List.cons_append, List.nil_append, List.append_assoc]
    rw [numAt_cons, if_pos (Or.inl rfl), hcore]
  · simp only [Option.toList, List.cons_append, List.nil_append, List.append_assoc]
    rw [numAt_cons, if_pos (Or.inr rfl), hcore]

theorem gnum_chars_ne_nil {n : GNum} (h : n.ok = true) : n.chars ≠ [] := by
  obtain ⟨hsign, hIne, hdI, hfr⟩ := gnum_ok_parts h
  unfold GNum.chars
  simp [hIne]

theorem reSearchNum_cons (sfx : Sfx) (c : Char) (rest : List Char) :
    reSearchNum sfx (c :: rest) =
      match numAt sfx (c :: rest) with
      | some g => some g
      | none => reSearchNum sfx rest := rfl

theorem reSearchNum_gnum {n : GNum} {sfx : Sfx} {u : List Char} (h : n.ok = true)
    (hune : u ≠ []) (hm : Sfx.matchesAt sfx u = true)
    (hlen : ∀ l2, Sfx.matchesAt sfx l2 = true → u.length ≤ l2.length) :
    reSearchNum sfx (n.chars ++ u) = some n.chars := by
  have hA := numAt_gnum h hune hm hlen
  cases hch : n.chars ++ u with
  | nil =>
      rw [hch] at hA
      simpa [numAt] using hA
  | cons c rest =>
      rw [reSearchNum_cons, ← hch, hA]

theorem filter_suffixed_gnum {n : GNum} {sfx : Sfx} {u : List Char}
    (h : n.ok = true) (hv : sfx.isVariantB u = true) :
    filter_suffixed_value (String.mk (n.chars ++ u)) sfx = PFloat.fin n.val := by
  obtain ⟨hune, hm, hlen⟩ := isVariant_facts hv
  unfold filter_suffixed_value
  rw [show (String.mk (n.chars ++ u)).data = n.chars ++ u from rfl,
    reSearchNum_gnum h hune hm hlen]
  exact to_float_gnum h

/-! The extractor never produces an infinite value: every captured
group consists of sign, digit and separator characters, and such a
string can never parse as an infinity word. -/

theorem greedyFind_le {p : Nat → Bool} {n d : Nat}
    (h : greedyFind n p = some d) : d ≤ n := by
  induction n with
  | zero =>
      unfold greedyFind at h
      by_cases h0 : p 0 = true
      · rw [if_pos h0] at h
        cases h
        exact Nat.le_refl 0
      · rw [if_neg h0] at h
        cases h
  | succ k ih =>
      unfold greedyFind at h
      by_cases h0 : p (k + 1) = true
      · rw [if_pos h0] at h
        cases h
        exact Nat.le_refl _
      · rw [if_neg h0] at h
        exact Nat.le_trans (ih h) (Nat.le_succ k)

theorem greedyFind1_le {p : Nat → Bool} {n d : Nat}
    (h : greedyFind1 n p = some d) : d ≤ n := by
  induction n with
  | zero => cases h
  | succ k ih =>
      unfold greedyFind1 at h
      by_cases h0 : p (k + 1) = true
      · rw [if_pos h0] at h
        cases h
        exact Nat.le_refl _
      · rw [if_neg h0] at h
        exact Nat.le_trans (ih h) (Nat.le_succ k)

theorem fracTail_chars {sfx : Sfx} {r g : List Char}
    (h : fracTail sfx r = some g) : ∀ c ∈ g, isDig c = true := by
  unfold fracTail at h
  cases hg : greedyFind (countLeading isDig r) (fun d => wsSfxOk sfx (List.drop d r)) with
  | none => rw [hg] at h; cases h
  | some d =>
      rw [hg] at h
      simp only [Option.some.injEq] at h
      subst h
      exact mem_take_countLeading (greedyFind_le hg)

theorem sepFracTail_chars {sfx : Sfx} {r g : List Char}
    (h : sepFracTail sfx r = some g) :
    ∀ c ∈ g, isDig c = true ∨ isSep c = true := by
  cases r with
  | nil =>
      intro c hc
      exact Or.inl (fracTail_chars h c hc)
  | cons a rest =>
      rw [sepFracTail_cons] at h
      by_cases ha : isSep a = true
      · rw [if_pos ha] at h
        cases hft : fracTail sfx rest with
        | some g2 =>
            rw [hft] at h
            simp only [Option.some.injEq] at h
            subst h
            intro c hc
            rcases List.mem_cons.mp hc with h1 | h1
            · subst h1; exact Or.inr ha
            · exact Or.inl (fracTail_chars hft c h1)
        | none =>
            rw [hft] at h
            intro c hc
            exact Or.inl (fracTail_chars h c hc)
      · rw [if_neg ha] at h
        intro c hc
        exact Or.inl (fracTail_chars h c hc)

theorem numCore_chars {sfx : Sfx} {m g : List Char}
    (h : numCore sfx m = some g) :
    ∀ c ∈ g, isDig c = true ∨ isSep c = true := by
  unfold numCore at h
  cases hg1 : greedyFind1 (countLeading isDig m)
      (fun k => (sepFracTail sfx (List.drop k m)).isSome) with
  | none => rw [hg1] at h; cases h
  | some k =>
      rw [hg1] at h
      have h2 : (match sepFracTail sfx (List.drop k m) with
          | some t => some (List.take k m ++ t)
          | none => none) = some g := h
      cases hst : sepFracTail sfx (List.drop k m) with
      | none => rw [hst] at h2; cases h2
      | some t =>
          rw [hst] at h2
          simp only [Option.some.injEq] at h2
          subst h2
          intro c hc
          rcases List.mem_append.mp hc with h1 | h1
          · exact Or.inl (mem_take_countLeading (greedyFind1_le hg1) c h1)
          · exact sepFracTail_chars hst c h1

theorem numAt_chars {sfx : Sfx} {l g : List Char}
    (h : numAt sfx l = some g) :
    ∀ c ∈ g, c = '+' ∨ c = '-' ∨ isDig c = true ∨ isSep c = true := by
  cases l with
  | nil => cases h
  | cons a rest =>
      rw [numAt_cons] at h
      by_cases ha : a = '+' ∨ a = '-'
      · rw [if_pos ha] at h
        cases hnc : numCore sfx rest with
        | some g2 =>
            rw [hnc] at h
            simp only [Option.some.injEq] at h
            subst h
            intro c hc
            rcases List.mem_cons.mp hc with h1 | h1
            · subst h1
              rcases ha with h2 | h2
              · exact Or.inl h2
              · exact Or.inr (Or.inl h2)
            · rcases numCore_chars hnc c h1 with h2 | h2
              · exact Or.inr (Or.inr (Or.inl h2))
              · exact Or.inr (Or.inr (Or.inr h2))
        | none =>
            rw [hnc] at h
            intro c hc
            rcases numCore_chars h c hc with h2 | h2
            · exact Or.inr (Or.inr (Or.inl h2))
            · exact Or.inr (Or.inr (Or.inr h2))
      · rw [if_neg ha] at h
        intro c hc
        rcases numCore_chars h c hc with h2 | h2
        · exact Or.inr (Or.inr (Or.inl h2))
        · exact Or.inr (Or.inr (Or.inr h2))

theorem reSearchNum_chars {sfx : Sfx} :
    ∀ {l g : List Char}, reSearchNum sfx l = some g →
      ∀ c ∈ g, c = '+' ∨ c = '-' ∨ isDig c = true ∨ isSep c = true := by
  intro l
  induction l with
  | nil => intro g h; cases h
  | cons a rest ih =>
      intro g h
      rw [reSearchNum_cons] at h
      cases hA : numAt sfx (a :: rest) with
      | some g2 =>
          rw [hA] at h
          simp only [Option.some.injEq] at h
          subst h
          exact numAt_chars hA
      | none =>
          rw [hA] at h
          exact ih h

theorem mem_pyStrip {l : List Char} {c : Char} (h : c ∈ pyStrip l) : c ∈ l := by
  unfold pyStrip at h
  rw [List.mem_reverse] at h
  have h2 : c ∈ (l.dropWhile isWs).reverse :=
    List.Sublist.mem h (List.dropWhile_sublist _)
  rw [List.mem_reverse] at h2
  exact List.Sublist.mem h2 (List.dropWhile_sublist _)

theorem pyFloatBody_inf {neg : Bool} {r : List Char} {v : PFloat}
    (h : pyFloatBody neg r = some v)
    (hv : v = PFloat.inf ∨ v = PFloat.neginf) : ∃ c ∈ r, foldc c = 'i' := by
  unfold pyFloatBody at h
  by_cases hinf : r.map foldc = ['i','n','f'] ∨ r.map foldc = ['i','n','f','i','n','i','t','y']
  · have hhead : ∃ rest, r.map foldc = 'i' :: rest := by
      rcases hinf with h1 | h1
      · exact ⟨_, h1⟩
      · exact ⟨_, h1⟩
    obtain ⟨rest, hrest⟩ := hhead
    cases r with
    | nil => cases hrest
    | cons a r2 =>
        rw [List.map_cons] at hrest
        exact ⟨a, List.mem_cons_self a r2, List.head_eq_of_cons_eq hrest⟩
  · rw [if_neg hinf] at h
    by_cases hnan : r.map foldc = ['n','a','n']
    · rw [if_pos hnan] at h
      simp only [Option.some.injEq] at h
      rw [← h] at hv
      rcases hv with h1 | h1 <;> cases h1
    · rw [if_neg hnan] at h
      cases hp : parseNumber r with
      | none => rw [hp] at h; cases h
      | some qr =>
          rw [hp] at h
          have h2 : (if (parseExp qr.2).2 = [] then
              some (PFloat.fin ((if neg = true then -qr.1 else qr.1) *
                10 ^ (parseExp qr.2).1))
            else none) = some v := h
          by_cases hr3 : (parseExp qr.2).2 = []
          · rw [if_pos hr3] at h2
            simp only [Option.some.injEq] at h2
            rw [← h2] at hv
            rcases hv with h1 | h1 <;> cases h1
          · rw [if_neg hr3] at h2
            cases h2

theorem pyFloatCore_inf {l : List Char} {v : PFloat}
    (h : pyFloatCore l = some v)
    (hv : v = PFloat.inf ∨ v = PFloat.neginf) : ∃ c ∈ l, foldc c = 'i' := by
  cases l with
  | nil =>
      obtain ⟨c, hc, _⟩ := pyFloatBody_inf h hv
      cases hc
  | cons a r =>
      have h2 : (if a = '+' then pyFloatBody false r
          else if a = '-' then pyFloatBody true r
          else pyFloatBody false (a :: r)) = some v := h
      by_cases ha : a = '+'
      · rw [if_pos ha] at h2
        obtain ⟨c, hc, hfc⟩ := pyFloatBody_inf h2 hv
        exact ⟨c, List.mem_cons_of_mem a hc, hfc⟩
      · rw [if_neg ha] at h2
        by_cases hb : a = '-'
        · rw [if_pos hb] at h2
          obtain ⟨c, hc, hfc⟩ := pyFloatBody_inf h2 hv
          exact ⟨c, List.mem_cons_of_mem a hc, hfc⟩
        · rw [if_neg hb] at h2
          exact pyFloatBody_inf h2 hv

theorem to_float_not_inf {s : String}
    (hch : ∀ c ∈ s.data, c = '+' ∨ c = '-' ∨ isDig c = true ∨ isSep c = true) :
    to_float s ≠ PFloat.inf ∧ to_float s ≠ PFloat.neginf := by
  unfold to_float
  cases hp : pyFloatCore (pyStrip (replaceComma s.data)) with
  | none => exact ⟨by simp, by simp⟩
  | some v =>
      have hnoti : ∀ v2, v2 = PFloat.inf ∨ v2 = PFloat.neginf → v ≠ v2 := by
        intro v2 hv2 hveq
        obtain ⟨c, hc, hfc⟩ := pyFloatCore_inf hp (hveq ▸ hv2)
        have hc2 : c ∈ replaceComma s.data := mem_pyStrip hc
        rw [replaceComma] at hc2
        obtain ⟨c0, hc0, hrepl⟩ := List.mem_map.mp hc2
        rcases hch c0 hc0 with h1 | h1 | h1 | h1
        · rw [h1] at hrepl
          simp only [if_neg (by decide : ¬('+' : Char) = ',')] at hrepl
          rw [← hrepl] at hfc
          exact absurd hfc (by decide)
        · rw [h1] at hrepl
          simp only [if_neg (by decide : ¬('-' : Char) = ',')] at hrepl
          rw [← hrepl] at hfc
          exact absurd hfc (by decide)
        · obtain ⟨_, _, _, _, hcom, _, _, hi, _, _⟩ := isDig_facts h1
          rw [if_neg hcom] at hrepl
          rw [← hrepl] at hfc
          exact absurd hfc hi
        · obtain ⟨hor, _⟩ := isSep_facts h1
          rcases hor with h2 | h2 <;> rw [h2] at hrepl
          · simp only [if_pos rfl] at hrepl
            rw [← hrepl] at hfc
            exact absurd hfc (by decide)
          · simp only [if_neg (by decide : ¬('.' : Char) = ',')] at hrepl
            rw [← hrepl] at hfc
            exact absurd hfc (by decide)
      exact ⟨hnoti PFloat.inf (Or.inl rfl), hnoti PFloat.neginf (Or.inr rfl)⟩

theorem filter_suffixed_not_inf (text : String) (sfx : Sfx) :
    filter_suffixed_value text sfx ≠ PFloat.inf ∧
      filter_suffixed_value text sfx ≠ PFloat.neginf := by
  unfold filter_suffixed_value
  cases hg : reSearchNum sfx text.data with
  | none => exact ⟨by simp, by simp⟩
  | some g =>
      exact to_float_not_inf (fun c hc => reSearchNum_chars hg c hc)

/-! Lemmas about the date and time template matcher. -/

theorem matchFmt_dateOnly : ∀ {f : List FTok} {l : List Char} {p q : DParts},
    dateOnlyFmt f = true → matchFmt f l p = some q →
    q.hour = p.hour ∧ q.minute = p.minute := by
  intro f
  induction f with
  | nil =>
      intro l p q _ h
      have h2 : some p = some q := h
      simp only [Option.some.injEq] at h2
      rw [← h2]
      exact ⟨rfl, rfl⟩
  | cons tok ts ih =>
      intro l p q hdate h
      have htok : dateOnlyTok tok = true ∧ dateOnlyFmt ts = true := by
        have := List.all_eq_true.mp hdate
        refine ⟨this tok (List.mem_cons_self tok ts), List.all_eq_true.mpr ?_⟩
        intro x hx
        exact this x (List.mem_cons_of_mem tok hx)
      cases tok with
      | lit ch =>
          cases l with
          | nil => cases h
          | cons c2 r =>
              have h2 : (if c2 = ch then matchFmt ts r p else none) = some q := h
              by_cases hc2 : c2 = ch
              · rw [if_pos hc2] at h2
                exact ⟨(ih htok.2 h2).1, (ih htok.2 h2).2⟩
              · rw [if_neg hc2] at h2
                cases h2
      | DD =>
          have h2 : (match dig2 l with
              | some vr => matchFmt ts vr.2 { p with day := vr.1 }
              | none => none) = some q := h
          cases hd : dig2 l with
          | none => simp only [hd] at h2; cases h2
          | some vr =>
              simp only [hd] at h2
              exact ⟨(ih htok.2 h2).1, (ih htok.2 h2).2⟩
      | D =>
          have h2 : (match dig2 l with
              | some vr =>
                  (match matchFmt ts vr.2 { p with day := vr.1 } with
                   | some q2 => some q2
                   | none =>
                       match dig1 l with
                       | some vr1 => matchFmt ts vr1.2 { p with day := vr1.1 }
                       | none => none)
              | none =>
                  match dig1 l with
                  | some vr1 => matchFmt ts vr1.2 { p with day := vr1.1 }
                  | none => none) = some q := h
          cases hd : dig2 l with
          | some vr =>
              simp only [hd] at h2
              cases hm2 : matchFmt ts vr.2 { p with day := vr.1 } with
              | some q2 =>
                  simp only [hm2] at h2
                  simp only [Option.some.injEq] at h2
                  rw [← h2]
                  exact ⟨(ih htok.2 hm2).1, (ih htok.2 hm2).2⟩
              | none =>
                  simp only [hm2] at h2
                  cases hd1 : dig1 l with
                  | some vr1 =>
                      simp only [hd1] at h2
                      exact ⟨(ih htok.2 h2).1, (ih htok.2 h2).2⟩
                  | none => simp only [hd1] at h2; cases h2
          | none =>
              simp only [hd] at h2
              cases hd1 : dig1 l with
              | some vr1 =>
                  simp only [hd1] at h2
                  exact ⟨(ih htok.2 h2).1, (ih htok.2 h2).2⟩
              | none => simp only [hd1] at h2; cases h2
      | MM =>
          have h2 : (match dig2 l with
              | some vr => matchFmt ts vr.2 { p with month := vr.1 }
              | none => none) = some q := h
          cases hd : dig2 l with
          | none => simp only [hd] at h2; cases h2
          | some vr =>
              simp only [hd] at h2
              exact ⟨(ih htok.2 h2).1, (ih htok.2 h2).2⟩
      | M =>
          have h2 : (match dig2 l with
              | some vr =>
                  (match matchFmt ts vr.2 { p with month := vr.1 } with
                   | some q2 => some q2
                   | none =>
                       match dig1 l with
                       | some vr1 => matchFmt ts vr1.2 { p with month := vr1.1 }
                       | none => none)
              | none =>
                  match dig1 l with
                  | some vr1 => matchFmt ts vr1.2 { p with month := vr1.1 }
                  | none => none) = some q := h
          cases hd : dig2 l with
          | some vr =>
              simp only [hd] at h2
              cases hm2 : matchFmt ts vr.2 { p with month := vr.1 } with
              | some q2 =>
                  simp only [hm2] at h2
                  simp only [Option.some.injEq] at h2
                  rw [← h2]
                  exact ⟨(ih htok.2 hm2).1, (ih htok.2 hm2).2⟩
              | none =>
                  simp only [hm2] at h2
                  cases hd1 : dig1 l with
                  | some vr1 =>
                      simp only [hd1] at h2
                      exact ⟨(ih htok.2 h2).1, (ih htok.2 h2).2⟩
                  | none => simp only [hd1] at h2; cases h2
          | none =>
              simp only [hd] at h2
              cases hd1 : dig1 l with
              | some vr1 =>
                  simp only [hd1] at h2
                  exact ⟨(ih htok.2 h2).1, (ih htok.2 h2).2⟩
              | none => simp only [hd1] at h2; cases h2
      | YYYY =>
          have h2 : (match dig4 l with
              | some vr => matchFmt ts vr.2 { p with year := vr.1 }
              | none => none) = some q := h
          cases hd : dig4 l with
          | none => simp only [hd] at h2; cases h2
          | some vr =>
              simp only [hd] at h2
              exact ⟨(ih htok.2 h2).1, (ih htok.2 h2).2⟩
      | HH => cases htok.1
      | H => cases htok.1
      | mm => cases htok.1
      | m => cases htok.1

theorem searchFmt_dateOnly {f : List FTok} (hf : dateOnlyFmt f = true) :
    ∀ {l : List Char} {p : DParts}, searchFmt f l = some p →
      p.hour = 0 ∧ p.minute = 0 := by
  intro l
  induction l with
  | nil =>
      intro p h
      exact matchFmt_dateOnly hf h
  | cons c rest ih =>
      intro p h
      have h2 : (match matchFmt f (c :: rest) DParts.init with
          | some p2 => some p2
          | none => searchFmt f rest) = some p := h
      cases hm : matchFmt f (c :: rest) DParts.init with
      | some p2 =>
          simp only [hm] at h2
          simp only [Option.some.injEq] at h2
          rw [← h2]
          exact matchFmt_dateOnly hf hm
      | none =>
          simp only [hm] at h2
          exact ih h2

theorem parsePhase_dateOnly {fs : List (List FTok)}
    (hfs : ∀ f ∈ fs, dateOnlyFmt f = true) :
    ∀ {l : List Char} {dt : PyDateTime}, parsePhase fs l = some dt →
      dt.hour = 0 ∧ dt.minute = 0 := by
  induction fs with
  | nil => intro l dt h; cases h
  | cons f fs2 ih =>
      intro l dt h
      have h2 : (match searchFmt f l with
          | some p => mkDateTime p
          | none => parsePhase fs2 l) = some dt := h
      cases hs : searchFmt f l with
      | some p =>
          simp only [hs] at h2
          unfold mkDateTime at h2
          by_cases hvalid : 1 ≤ p.year ∧ p.year ≤ 9999 ∧ 1 ≤ p.month ∧ p.month ≤ 12 ∧
              1 ≤ p.day ∧ p.day ≤ daysInMonth p.year p.month ∧
              p.hour ≤ 23 ∧ p.minute ≤ 59
          · rw [if_pos hvalid] at h2
            simp only [Option.some.injEq] at h2
            rw [← h2]
            exact searchFmt_dateOnly (hfs f (List.mem_cons_self f fs2)) hs
          · rw [if_neg hvalid] at h2
            cases h2
      | none =>
          simp only [hs] at h2
          exact ih (fun f2 hf2 => hfs f2 (List.mem_cons_of_mem f hf2)) h2

theorem filter_datetime_dateOnly {text : String} {dt : PyDateTime}
    (h1 : parsePhase datetime_formats (normWs text.data) = none)
    (h : filter_datetime text = some dt) : dt.hour = 0 ∧ dt.minute = 0 := by
  unfold filter_datetime at h
  simp only [h1] at h
  exact parsePhase_dateOnly (by decide) h

theorem from_text_default {text : String} {d : PyDateTime}
    (h : filter_datetime text = none) :
    (FuelingInputModel.from_text text d).date = d := by
  unfold FuelingInputModel.from_text
  simp [h]

/-! Separator counting: a string the float built-in accepts holds at
most one separator character. -/

theorem sepCount_cons_not {c : Char} {l : List Char} (h : isSep c = false) :
    sepCount (c :: l) = sepCount l := by
  simp [sepCount, List.countP_cons, h]

theorem sepCount_replaceComma (l : List Char) :
    sepCount (replaceComma l) = sepCount l := by
  induction l with
  | nil => rfl
  | cons c cs ih =>
      by_cases hc : c = ','
      · subst hc
        simp [replaceComma, sepCount, List.countP_cons] at ih ⊢
        simpa [isSep] using ih
      · simp only [replaceComma, List.map_cons, if_neg hc] at ih ⊢
        simp [sepCount, List.countP_cons] at ih ⊢
        simpa using ih

theorem sepCount_dropWhileWs (l : List Char) :
    sepCount (l.dropWhile isWs) = sepCount l := by
  conv_rhs => rw [← List.takeWhile_append_dropWhile isWs l]
  rw [sepCount, sepCount, List.countP_append]
  have h0 : List.countP (fun c => isSep c) (l.takeWhile isWs) = 0 := by
    rw [List.countP_eq_zero]
    intro a ha
    simp only [Bool.not_eq_true]
    exact (isWs_facts (List.mem_takeWhile_imp ha)).2.2
  rw [h0]
  omega

theorem sepCount_pyStrip (l : List Char) : sepCount (pyStrip l) = sepCount l := by
  unfold pyStrip
  rw [sepCount, List.countP_reverse, ← sepCount]
  rw [sepCount_dropWhileWs, sepCount, List.countP_reverse, ← sepCount]
  exact sepCount_dropWhileWs l

theorem digitsRest_dig {c : Char} {rest : List Char} (hc : isDig c = true) :
    digitsRest (c :: rest) = ((digitsRest rest).1.cons c, (digitsRest rest).2) := by
  rw [digitsRest.eq_def]
  simp [hc]

theorem digitsRest_underscore {c2 : Char} {rest2 : List Char} (hc2 : isDig c2 = true) :
    digitsRest ('_' :: c2 :: rest2) =
      ((digitsRest rest2).1.cons c2, (digitsRest rest2).2) := by
  have hu : isDig '_' = false := by decide
  rw [digitsRest.eq_def]
  simp [hu, hc2]

theorem digitsRest_underscore_stop {c2 : Char} {rest2 : List Char}
    (hc2 : isDig c2 = false) :
    digitsRest ('_' :: c2 :: rest2) = ([], '_' :: c2 :: rest2) := by
  have hu : isDig '_' = false := by decide
  rw [digitsRest.eq_def]
  simp [hu, hc2]

theorem digitsRest_sepCount (l : List Char) :
    sepCount (digitsRest l).2 = sepCount l := by
  induction l using digitsRest.induct with
  | case1 => rfl
  | case2 c rest hc ih =>
      rw [digitsRest_dig hc, ih, sepCount_cons_not (isDig_facts hc).1]
  | case3 c2 rest2 hc2 hu ih =>
      rw [digitsRest_underscore hc2, ih,
        sepCount_cons_not (by decide : isSep '_' = false),
        sepCount_cons_not (isDig_facts hc2).1]
  | case4 c2 rest2 hc2 hu =>
      rw [digitsRest_underscore_stop (Bool.not_eq_true _ ▸ hc2)]
  | case5 hu => rfl
  | case6 c rest hc hcu =>
      rw [digitsRest_stop ?_]
      intro x hx
      simp only [List.head?_cons, Option.some.injEq] at hx
      rw [← hx]
      exact ⟨Bool.not_eq_true _ ▸ hc, hcu⟩

theorem digitPart_sepCount {l ds r : List Char}
    (h : digitPart l = some (ds, r)) : sepCount r = sepCount l := by
  cases l with
  | nil => cases h
  | cons c rest =>
      have h2 : (if isDig c = true then
          some (c :: (digitsRest rest).1, (digitsRest rest).2)
        else none) = some (ds, r) := h
      by_cases hc : isDig c = true
      · rw [if_pos hc] at h2
        simp only [Option.some.injEq, Prod.mk.injEq] at h2
        rw [← h2.2, digitsRest_sepCount, sepCount_cons_not (isDig_facts hc).1]
      · rw [if_neg hc] at h2
        cases h2

theorem parseNumber_sepCount {l r2 : List Char} {q : ℚ}
    (h : parseNumber l = some (q, r2)) : sepCount l ≤ 1 + sepCount r2 := by
  unfold parseNumber at h
  split at h
  next Ir heq =>
    have hIr : sepCount Ir.2 = sepCount l := by
      obtain ⟨I, rI⟩ := Ir
      exact digitPart_sepCount heq
    split at h
    next c r3 heq2 =>
      split at h
      next hdot =>
        split at h
        next Fr heq3 =>
          simp only [Option.some.injEq, Prod.mk.injEq] at h
          have hFr : sepCount Fr.2 = sepCount r3 := by
            obtain ⟨F, rF⟩ := Fr
            exact digitPart_sepCount heq3
          rw [heq2, hdot] at hIr
          rw [show sepCount ('.' :: r3) = sepCount r3 + 1 by
            simp [sepCount, List.countP_cons, isSep]] at hIr
          rw [h.2] at hFr
          omega
        next heq3 =>
          simp only [Option.some.injEq, Prod.mk.injEq] at h
          rw [heq2, hdot] at hIr
          rw [show sepCount ('.' :: r3) = sepCount r3 + 1 by
            simp [sepCount, List.countP_cons, isSep]] at hIr
          rw [h.2] at hIr
          omega
      next hdot =>
        simp only [Option.some.injEq, Prod.mk.injEq] at h
        rw [heq2, h.2] at hIr
        omega
    next heq2 =>
      simp only [Option.some.injEq, Prod.mk.injEq] at h
      rw [heq2] at hIr
      have h0 : sepCount ([] : List Char) = 0 := rfl
      omega
  next heq =>
    split at h
    next c r3 =>
      split at h
      next hdot =>
        split at h
        next Fr heq3 =>
          simp only [Option.some.injEq, Prod.mk.injEq] at h
          have hFr : sepCount Fr.2 = sepCount r3 := by
            obtain ⟨F, rF⟩ := Fr
            exact digitPart_sepCount heq3
          rw [h.2] at hFr
          rw [hdot]
          rw [show sepCount ('.' :: r3) = sepCount r3 + 1 by
            simp [sepCount, List.countP_cons, isSep]]
          omega
        next heq3 => cases h
      next hdot => cases h
    next => cases h

theorem parseExp_sepCount (l : List Char) :
    sepCount (parseExp l).2 = sepCount l := by
  cases l with
  | nil => rfl
  | cons c rest =>
      simp only [parseExp]
      by_cases hc : foldc c = 'e'
      · rw [if_pos hc]
        have hcsep : isSep c = false := by
          cases hsep : isSep c
          · rfl
          · obtain ⟨hor, _⟩ := isSep_facts hsep
            rcases hor with h1 | h1 <;> subst h1 <;> cases hc
        cases rest with
        | nil => simp
        | cons s r2 =>
            show sepCount (if s = '+' ∨ s = '-' then
                (match digitPart r2 with
                 | some Er =>
                     (if s = '-' then -(digitsVal Er.1 : ℤ) else (digitsVal Er.1 : ℤ),
                       Er.2)
                 | none => ((0 : ℤ), c :: s :: r2))
              else
                (match digitPart (s :: r2) with
                 | some Er => ((digitsVal Er.1 : ℤ), Er.2)
                 | none => ((0 : ℤ), c :: s :: r2))).2 = sepCount (c :: s :: r2)
            by_cases hs : s = '+' ∨ s = '-'
            · rw [if_pos hs]
              cases hdp : digitPart r2 with
              | some Er =>
                  simp only [hdp]
                  have hssep : isSep s = false := by
                    rcases hs with h1 | h1 <;> subst h1 <;> decide
                  have h2 : sepCount Er.2 = sepCount r2 :=
                    digitPart_sepCount (by rw [hdp])
                  rw [h2, sepCount_cons_not hcsep, sepCount_cons_not hssep]
              | none => simp only [hdp]
            · rw [if_neg hs]
              cases hdp : digitPart (s :: r2) with
              | some Er =>
                  simp only [hdp]
                  have h2 : sepCount Er.2 = sepCount (s :: r2) :=
                    digitPart_sepCount (by rw [hdp])
                  rw [h2, sepCount_cons_not hcsep]
              | none => simp only [hdp]
      · rw [if_neg hc]

theorem word_sepCount_zero {r w : List Char} (hw : r.map foldc = w)
    (hns : ∀ c ∈ w, c ≠ ',' ∧ c ≠ '.') : sepCount r = 0 := by
  rw [sepCount, List.countP_eq_zero]
  intro a ha
  simp only [Bool.not_eq_true]
  cases hsep : isSep a
  · rfl
  · have hor := (isSep_facts hsep).1
    have hmem : foldc a ∈ w := by
      rw [← hw]
      exact List.mem_map.mpr ⟨a, ha, rfl⟩
    have hfa : foldc a = a := by
      rcases hor with h1 | h1 <;> subst h1 <;> decide
    rw [hfa] at hmem
    obtain ⟨h1, h2⟩ := hns a hmem
    rcases hor with h3 | h3
    · exact absurd h3 h1
    · exact absurd h3 h2

theorem pyFloatBody_sepCount {neg : Bool} {r : List Char} {v : PFloat}
    (h : pyFloatBody neg r = some v) : sepCount r ≤ 1 := by
  unfold pyFloatBody at h
  by_cases hinf : r.map foldc = ['i','n','f'] ∨
      r.map foldc = ['i','n','f','i','n','i','t','y']
  · rcases hinf with h1 | h1
    · rw [word_sepCount_zero h1 (by decide)]
      omega
    · rw [word_sepCount_zero h1 (by decide)]
      omega
  · rw [if_neg hinf] at h
    by_cases hnan : r.map foldc = ['n','a','n']
    · rw [word_sepCount_zero hnan (by decide)]
      omega
    · rw [if_neg hnan] at h
      cases hp : parseNumber r with
      | none => rw [hp] at h; cases h
      | some qr =>
          rw [hp] at h
          have h2 : (if (parseExp qr.2).2 = [] then
              some (PFloat.fin ((if neg = true then -qr.1 else qr.1) *
                10 ^ (parseExp qr.2).1))
            else none) = some v := h
          by_cases hr3 : (parseExp qr.2).2 = []
          · obtain ⟨q0, r0⟩ := qr
            have hnum : sepCount r ≤ 1 + sepCount r0 := parseNumber_sepCount hp
            have hexp : sepCount (parseExp r0).2 = sepCount r0 := parseExp_sepCount r0
            rw [hr3] at hexp
            have h0 : sepCount ([] : List Char) = 0 := rfl
            omega
          · rw [if_neg hr3] at h2
            cases h2

theorem pyFloatCore_sepCount {l : List Char} {v : PFloat}
    (h : pyFloatCore l = some v) : sepCount l ≤ 1 := by
  cases l with
  | nil => exact Nat.le_succ 0
  | cons a r =>
      have h2 : (if a = '+' then pyFloatBody false r
          else if a = '-' then pyFloatBody true r
          else pyFloatBody false (a :: r)) = some v := h
      by_cases ha : a = '+'
      · rw [if_pos ha] at h2
        have := pyFloatBody_sepCount h2
        rw [sepCount_cons_not (by rw [ha]; decide)]
        exact this
      · rw [if_neg ha] at h2
        by_cases hb : a = '-'
        · rw [if_pos hb] at h2
          have := pyFloatBody_sepCount h2
          rw [sepCount_cons_not (by rw [hb]; decide)]
          exact this
        · rw [if_neg hb] at h2
          exact pyFloatBody_sepCount h2

theorem parseNumber_digit {l : List Char} {q : ℚ} {r2 : List Char}
    (h : parseNumber l = some (q, r2)) : ∃ c ∈ l, isDig c = true := by
  unfold parseNumber at h
  cases hdp : digitPart l with
  | some Ir =>
      cases l with
      | nil => cases hdp
      | cons c rest =>
          have h3 : (if isDig c = true then
              some (c :: (digitsRest rest).1, (digitsRest rest).2)
            else none) = some Ir := hdp
          by_cases hc : isDig c = true
          · exact ⟨c, List.mem_cons_self c rest, hc⟩
          · rw [if_neg hc] at h3
            cases h3
  | none =>
      rw [hdp] at h
      cases l with
      | nil => cases h
      | cons c r3 =>
          have h4 : (if c = '.' then
              (match digitPart r3 with
               | some Fr => some ((digitsVal Fr.1 : ℚ) / 10 ^ Fr.1.length, Fr.2)
               | none => none)
            else none) = some (q, r2) := h
          by_cases hc : c = '.'
          · rw [if_pos hc] at h4
            cases hdp2 : digitPart r3 with
            | some Fr =>
                cases r3 with
                | nil => cases hdp2
                | cons d r4 =>
                    have h3 : (if isDig d = true then
                        some (d :: (digitsRest r4).1, (digitsRest r4).2)
                      else none) = some Fr := hdp2
                    by_cases hd : isDig d = true
                    · exact ⟨d, List.mem_cons_of_mem c (List.mem_cons_self d r4), hd⟩
                    · rw [if_neg hd] at h3
                      cases h3
            | none =>
                rw [hdp2] at h4
                simp at h4
          · rw [if_neg hc] at h4
            cases h4

theorem pyFloatCore_digit {l : List Char} {v : PFloat}
    (h : pyFloatCore l = some v) :
    ∃ c ∈ l, isDig c = true ∨ foldc c = 'i' ∨ foldc c = 'n' := by
  have hbody : ∀ {neg : Bool} {r : List Char}, pyFloatBody neg r = some v →
      ∃ c ∈ r, isDig c = true ∨ foldc c = 'i' ∨ foldc c = 'n' := by
    intro neg r hb
    unfold pyFloatBody at hb
    by_cases hinf : r.map foldc = ['i','n','f'] ∨
        r.map foldc = ['i','n','f','i','n','i','t','y']
    · have hhead : ∃ rest, r.map foldc = 'i' :: rest := by
        rcases hinf with h1 | h1
        · exact ⟨_, h1⟩
        · exact ⟨_, h1⟩
      obtain ⟨rest, hrest⟩ := hhead
      cases r with
      | nil => cases hrest
      | cons a r2 =>
          rw [List.map_cons] at hrest
          exact ⟨a, List.mem_cons_self a r2,
            Or.inr (Or.inl (List.head_eq_of_cons_eq hrest))⟩
    · rw [if_neg hinf] at hb
      by_cases hnan : r.map foldc = ['n','a','n']
      · cases r with
        | nil => cases hnan
        | cons a r2 =>
            rw [List.map_cons] at hnan
            exact ⟨a, List.mem_cons_self a r2,
              Or.inr (Or.inr (List.head_eq_of_cons_eq hnan))⟩
      · rw [if_neg hnan] at hb
        cases hp : parseNumber r with
        | none => rw [hp] at hb; cases hb
        | some qr =>
            obtain ⟨q0, r0⟩ := qr
            obtain ⟨c, hc, hdig⟩ := parseNumber_digit hp
            exact ⟨c, hc, Or.inl hdig⟩
  cases l with
  | nil => exact hbody h
  | cons a r =>
      have h2 : (if a = '+' then pyFloatBody false r
          else if a = '-' then pyFloatBody true r
          else pyFloatBody false (a :: r)) = some v := h
      by_cases ha : a = '+'
      · rw [if_pos ha] at h2
        obtain ⟨c, hc, hp⟩ := hbody h2
        exact ⟨c, List.mem_cons_of_mem a hc, hp⟩
      · rw [if_neg ha] at h2
        by_cases hb : a = '-'
        · rw [if_pos hb] at h2
          obtain ⟨c, hc, hp⟩ := hbody h2
          exact ⟨c, List.mem_cons_of_mem a hc, hp⟩
        · rw [if_neg hb] at h2
          exact hbody h2

/-! Helper classification lemmas used by the claim theorems. -/

theorem pfloat_classify (x : PFloat) (h1 : x ≠ PFloat.inf) (h2 : x ≠ PFloat.neginf) :
    x = PFloat.nan ∨ ∃ q, x = PFloat.fin q := by
  cases x with
  | nan => exact Or.inl rfl
  | inf => exact absurd rfl h1
  | neginf => exact absurd rfl h2
  | fin q => exact Or.inr ⟨q, rfl⟩

theorem gnum_ok_of_strict {n : GNum} (h : n.strict = true) : n.ok = true := by
  unfold GNum.strict at h
  rw [Bool.and_eq_true] at h
  exact h.1

/-- Claim C1 counterexample: on the date-only input 01.01.2023 the
extractor returns 2023-01-01 at 00:00 in the fixed zone, that is
midnight, not the midday 12:00 the claim states. -/
theorem c1_counterexample :
    filter_datetime (String.mk ['0','1','.','0','1','.','2','0','2','3']) =
      some ⟨2023, 1, 1, 0, 0, String.mk
        ['E','u','r','o','p','e','/','H','e','l','s','i','n','k','i']⟩ ∧
    (⟨2023, 1, 1, 0, 0, String.mk
        ['E','u','r','o','p','e','/','H','e','l','s','i','n','k','i']⟩ :
      PyDateTime).hour ≠ 12 := by
  exact ⟨by decide, by decide⟩

/-- Claim C1 (amended): for every input text in which some date
template matches but no combined date-plus-time template matches, the
extractor returns that calendar date with the time-of-day defaulted to
local midnight 00:00 in the fixed local zone (not midday). -/
theorem c1_amended (text : String) (dt : PyDateTime)
    (h1 : parsePhase datetime_formats (normWs text.data) = none)
    (h2 : filter_datetime text = some dt) : dt.hour = 0 ∧ dt.minute = 0 :=
  filter_datetime_dateOnly h1 h2

/-- Witness for C1 at the date-only input 01.01.2023. -/
theorem c1_witness :
    (⟨2023, 1, 1, 0, 0, String.mk
        ['E','u','r','o','p','e','/','H','e','l','s','i','n','k','i']⟩ :
      PyDateTime).hour = 0 ∧
    (⟨2023, 1, 1, 0, 0, String.mk
        ['E','u','r','o','p','e','/','H','e','l','s','i','n','k','i']⟩ :
      PyDateTime).minute = 0 :=
  c1_amended (String.mk ['0','1','.','0','1','.','2','0','2','3']) _
    (by decide) (by decide)

/-- Claim C2: a record built by the builder is truthy exactly when at
least one of the three metrics is a finite real value, and falsy
exactly when all three are the nan sentinel; the date field plays no
role. -/
theorem c2_validity (text : String) (d d2 : PyDateTime) :
    ((FuelingInputModel.from_text text d).toBool = true ↔
      ((∃ q, (FuelingInputModel.from_text text d).fuel_litres = PFloat.fin q) ∨
       (∃ q, (FuelingInputModel.from_text text d).distance_km = PFloat.fin q) ∨
       (∃ q, (FuelingInputModel.from_text text d).cost_euros = PFloat.fin q))) ∧
    ((FuelingInputModel.from_text text d).toBool = false ↔
      ((FuelingInputModel.from_text text d).fuel_litres = PFloat.nan ∧
       (FuelingInputModel.from_text text d).distance_km = PFloat.nan ∧
       (FuelingInputModel.from_text text d).cost_euros = PFloat.nan)) ∧
    (FuelingInputModel.from_text text d).toBool =
      (FuelingInputModel.from_text text d2).toBool := by
  have hA := pfloat_classify _ (filter_suffixed_not_inf text litres_sfx).1
    (filter_suffixed_not_inf text litres_sfx).2
  have hB := pfloat_classify _ (filter_suffixed_not_inf text km_sfx).1
    (filter_suffixed_not_inf text km_sfx).2
  have hC := pfloat_classify _ (filter_suffixed_not_inf text euros_sfx).1
    (filter_suffixed_not_inf text euros_sfx).2
  rcases hA with hA | ⟨qa, hA⟩ <;> rcases hB with hB | ⟨qb, hB⟩ <;>
    rcases hC with hC | ⟨qc, hC⟩ <;>
    simp [FuelingInputModel.from_text, FuelingInputModel.toBool, filter_litres,
      filter_km, filter_euros, hA, hB, hC, PFloat.isNan]

/-- Claim C3: the inputs 33.12.2023 and the empty string yield no
date, without an error, and whenever no date is found the builder puts
the caller-supplied default timestamp in the record. -/
theorem c3_no_date (text : String) (d : PyDateTime) :
    filter_datetime (String.mk ['3','3','.','1','2','.','2','0','2','3']) = none ∧
    filter_datetime (String.mk []) = none ∧
    (filter_datetime text = none →
      (FuelingInputModel.from_text text d).date = d) := by
  exact ⟨by decide, by decide, fun h => from_text_default h⟩

/-- Witness for C3 at the input 33.12.2023. -/
theorem c3_witness :
    (FuelingInputModel.from_text (String.mk ['3','3','.','1','2','.','2','0','2','3'])
        ⟨2022, 12, 1, 0, 0, String.mk ['x']⟩).date =
      ⟨2022, 12, 1, 0, 0, String.mk ['x']⟩ :=
  (c3_no_date (String.mk ['3','3','.','1','2','.','2','0','2','3'])
    ⟨2022, 12, 1, 0, 0, String.mk ['x']⟩).2.2 (by decide)

/-- Claim C4: on every string of the claim grammar (optional sign,
digits, optionally one separator followed by digits, with surrounding
whitespace), to_float returns the exact mathematical value with the
comma read as a dot. -/
theorem c4_to_float_numeric (n : GNum) (w1 w2 : List Char) (h : n.strict = true)
    (hw1 : ∀ c ∈ w1, isWs c = true) (hw2 : ∀ c ∈ w2, isWs c = true) :
    to_float (String.mk (w1 ++ n.chars ++ w2)) = PFloat.fin n.val :=
  to_float_gnum_ws w1 w2 (gnum_ok_of_strict h) hw1 hw2

/-- Witness for C4 at the input -7,7 with surrounding whitespace. -/
theorem c4_witness :
    to_float (String.mk ([' '] ++ GNum.chars ⟨some '-', ['7'], some (',', ['7'])⟩
        ++ [' ', ' '])) =
      PFloat.fin (GNum.val ⟨some '-', ['7'], some (',', ['7'])⟩) :=
  c4_to_float_numeric ⟨some '-', ['7'], some (',', ['7'])⟩ [' '] [' ', ' ']
    (by decide) (by decide) (by decide)

/-- Claim C5 counterexample: the string 1e1 contains a letter, yet
to_float parses it as the number 10 through the exponent notation of
the float built-in instead of returning nan. -/
theorem c5_counterexample :
    to_float (String.mk ['1','e','1']) = PFloat.fin 10 ∧
      PFloat.fin 10 ≠ PFloat.nan := by
  constructor
  · have h1 : to_float (String.mk ['1','e','1']) =
        PFloat.fin ((digitsVal ['1'] : ℚ) * 10 ^ ((digitsVal ['1'] : ℤ))) := rfl
    have h2 : digitsVal ['1'] = 1 := by decide
    rw [h1, h2]
    congr 1
    norm_num
  · simp

/-- Claim C5 (amended): to_float returns the nan sentinel and never
raises on every string with two or more decimal separators, and on
every string that has no digit and no letter from the infinity or nan
words (this covers the empty string and a sign not followed by
digits); strings in exponent or infinity notation, however, parse as
numbers even though they contain letters. -/
theorem c5_amended (s : String)
    (h : 2 ≤ sepCount s.data ∨
      (∀ c ∈ s.data, isDig c = false ∧ foldc c ≠ 'i' ∧ foldc c ≠ 'n')) :
    to_float s = PFloat.nan := by
  unfold to_float
  cases hp : pyFloatCore (pyStrip (replaceComma s.data)) with
  | none => rfl
  | some v =>
      exfalso
      rcases h with h1 | h2
      · have hle := pyFloatCore_sepCount hp
        rw [sepCount_pyStrip, sepCount_replaceComma] at hle
        omega
      · obtain ⟨c, hc, hor⟩ := pyFloatCore_digit hp
        have hc2 : c ∈ replaceComma s.data := mem_pyStrip hc
        rw [replaceComma] at hc2
        obtain ⟨c0, hc0, hrepl⟩ := List.mem_map.mp hc2
        obtain ⟨hd0, hi0, hn0⟩ := h2 c0 hc0
        by_cases hcom : c0 = ','
        · rw [if_pos hcom] at hrepl
          rw [← hrepl] at hor
          rcases hor with h3 | h3 | h3
          · exact absurd h3 (by decide)
          · exact absurd h3 (by decide)
          · exact absurd h3 (by decide)
        · rw [if_neg hcom] at hrepl
          rw [← hrepl] at hor
          rcases hor with h3 | h3 | h3
          · rw [hd0] at h3
            cases h3
          · exact absurd h3 hi0
          · exact absurd h3 hn0

/-- Witness for C5 at the two-separator input 1..2. -/
theorem c5_witness : to_float (String.mk ['1','.','.','2']) = PFloat.nan :=
  c5_amended (String.mk ['1','.','.','2']) (Or.inl (by decide))

/-- Claim C6: for every number of the claim grammar and every unit
variant matching the suffix regex case-insensitively, extracting from
the number immediately followed by the variant returns exactly the
mathematical value of the number. -/
theorem c6_extract_value (n : GNum) (sfx : Sfx) (u : List Char)
    (h : n.strict = true) (hv : sfx.isVariantB u = true) :
    filter_suffixed_value (String.mk (n.chars ++ u)) sfx = PFloat.fin n.val :=
  filter_suffixed_gnum (gnum_ok_of_strict h) hv

/-- Witness for C6 at the input 6,6KM against the suffix km. -/
theorem c6_witness :
    filter_suffixed_value
        (String.mk (GNum.chars ⟨none, ['6'], some (',', ['6'])⟩ ++ ['K','M']))
        (Sfx.lit ['k','m']) =
      PFloat.fin (GNum.val ⟨none, ['6'], some (',', ['6'])⟩) :=
  c6_extract_value ⟨none, ['6'], some (',', ['6'])⟩ (Sfx.lit ['k','m'])
    ['K','M'] (by decide) (by decide)

/-- Claim C7 counterexample: the regex admits a numeric token ending
in a bare separator, so extract on 5.km returns 5.0 instead of the nan
the claim predicts. -/
theorem c7_counterexample :
    filter_suffixed_value (String.mk ['5','.','k','m']) (Sfx.lit ['k','m']) =
      PFloat.fin 5 ∧ PFloat.fin 5 ≠ PFloat.nan := by
  constructor
  · have h1 : filter_suffixed_value (String.mk ['5','.','k','m'])
        (Sfx.lit ['k','m']) =
        PFloat.fin ((digitsVal ['5'] : ℚ) * 10 ^ ((0 : ℤ))) := rfl
    have h2 : digitsVal ['5'] = 5 := by decide
    rw [h1, h2]
    congr 1
    norm_num
  · simp

/-- Claim C7 (amended): a numeric token recognized by the extractor
may carry a separator with no digits after it; a number followed by a
bare separator and then the unit marker is extracted, and its value is
that of the integer part alone. -/
theorem c7_amended (n : GNum) (sfx : Sfx) (u : List Char) (hok : n.ok = true)
    (hfr : ∃ sc, n.frac = some (sc, [])) (hv : sfx.isVariantB u = true) :
    filter_suffixed_value (String.mk (n.chars ++ u)) sfx = PFloat.fin n.val ∧
      n.val = GNum.val ⟨n.sign, n.int, none⟩ := by
  obtain ⟨sc, hsc⟩ := hfr
  refine ⟨filter_suffixed_gnum hok hv, ?_⟩
  simp [GNum.val, GNum.mag, hsc, digitsVal]

/-- Witness for C7 at the input 5.km against the suffix km. -/
theorem c7_witness :
    filter_suffixed_value
        (String.mk (GNum.chars ⟨none, ['5'], some ('.', [])⟩ ++ ['k','m']))
        (Sfx.lit ['k','m']) =
      PFloat.fin (GNum.val ⟨none, ['5'], some ('.', [])⟩) ∧
    GNum.val ⟨none, ['5'], some ('.', [])⟩ =
      GNum.val ⟨none, ['5'], none⟩ :=
  c7_amended ⟨none, ['5'], some ('.', [])⟩ (Sfx.lit ['k','m']) ['k','m']
    (by decide) ⟨'.', rfl⟩ (by decide)

/-- Claim C8: the currency character class written with vertical bars
in the source also matches a literal vertical bar, so a number
followed by a vertical bar is recorded as a cost and makes the record
valid. -/
theorem c8_pipe_cost (n : GNum) (d : PyDateTime) (h : n.strict = true) :
    filter_euros (String.mk (n.chars ++ ['|'])) = PFloat.fin n.val ∧
    (FuelingInputModel.from_text (String.mk (n.chars ++ ['|'])) d).cost_euros =
      PFloat.fin n.val ∧
    (FuelingInputModel.from_text (String.mk (n.chars ++ ['|'])) d).toBool = true := by
  have hval : filter_suffixed_value (String.mk (n.chars ++ ['|'])) euros_sfx =
      PFloat.fin n.val :=
    filter_suffixed_gnum (gnum_ok_of_strict h) (by decide)
  refine ⟨hval, hval, ?_⟩
  simp [FuelingInputModel.from_text, FuelingInputModel.toBool, filter_euros,
    hval, PFloat.isNan]

/-- Witness for C8 at the input 15 followed by a vertical bar. -/
theorem c8_witness :
    filter_euros (String.mk (GNum.chars ⟨none, ['1','5'], none⟩ ++ ['|'])) =
      PFloat.fin (GNum.val ⟨none, ['1','5'], none⟩) ∧
    (FuelingInputModel.from_text
        (String.mk (GNum.chars ⟨none, ['1','5'], none⟩ ++ ['|']))
        ⟨2022, 1, 1, 0, 0, String.mk ['x']⟩).cost_euros =
      PFloat.fin (GNum.val ⟨none, ['1','5'], none⟩) ∧
    (FuelingInputModel.from_text
        (String.mk (GNum.chars ⟨none, ['1','5'], none⟩ ++ ['|']))
        ⟨2022, 1, 1, 0, 0, String.mk ['x']⟩).toBool = true :=
  c8_pipe_cost ⟨none, ['1','5'], none⟩ ⟨2022, 1, 1, 0, 0, String.mk ['x']⟩
    (by decide)

/-- Claim C9: a number written with a leading decimal point and no
integer digits is extracted with its fractional digits read as a whole
number: extract on .5km returns 5.0, not 0.5 and not nan, because the
match starts at the first digit and the preceding separator is outside
the match. -/
theorem c9_leading_dot :
    filter_suffixed_value (String.mk ['.','5','k','m']) (Sfx.lit ['k','m']) =
      PFloat.fin 5 ∧
    PFloat.fin 5 ≠ PFloat.fin (1 / 2) ∧ PFloat.fin 5 ≠ PFloat.nan := by
  refine ⟨?_, by norm_num, by simp⟩
  have h1 : filter_suffixed_value (String.mk ['.','5','k','m'])
      (Sfx.lit ['k','m']) =
      PFloat.fin ((digitsVal ['5'] : ℚ) * 10 ^ ((0 : ℤ))) := rfl
  have h2 : digitsVal ['5'] = 5 := by decide
  rw [h1, h2]
  congr 1
  norm_num

/-- Claim C10: the builder is deterministic: on equal arguments the
four fields of the built records coincide; the result depends on
nothing outside the arguments (the embedding of from_text is a pure
function of text and default). -/
theorem c10_deterministic (t1 t2 : String) (d1 d2 : PyDateTime)
    (ht : t1 = t2) (hd : d1 = d2) :
    (FuelingInputModel.from_text t1 d1).date =
      (FuelingInputModel.from_text t2 d2).date ∧
    (FuelingInputModel.from_text t1 d1).fuel_litres =
      (FuelingInputModel.from_text t2 d2).fuel_litres ∧
    (FuelingInputModel.from_text t1 d1).distance_km =
      (FuelingInputModel.from_text t2 d2).distance_km ∧
    (FuelingInputModel.from_text t1 d1).cost_euros =
      (FuelingInputModel.from_text t2 d2).cost_euros := by
  subst ht
  subst hd
  exact ⟨rfl, rfl, rfl, rfl⟩

/-- Witness for C10 at the input 1km. -/
theorem c10_witness :
    (FuelingInputModel.from_text (String.mk ['1','k','m'])
        ⟨2022, 1, 1, 0, 0, String.mk ['x']⟩).date =
      (FuelingInputModel.from_text (String.mk ['1','k','m'])
        ⟨2022, 1, 1, 0, 0, String.mk ['x']⟩).date ∧
    (FuelingInputModel.from_text (String.mk ['1','k','m'])
        ⟨2022, 1, 1, 0, 0, String.mk ['x']⟩).fuel_litres =
      (FuelingInputModel.from_text (String.mk ['1','k','m'])
        ⟨2022, 1, 1, 0, 0, String.mk ['x']⟩).fuel_litres ∧
    (FuelingInputModel.from_text (String.mk ['1','k','m'])
        ⟨2022, 1, 1, 0, 0, String.mk ['x']⟩).distance_km =
      (FuelingInputModel.from_text (String.mk ['1','k','m'])
        ⟨2022, 1, 1, 0, 0, String.mk ['x']⟩).distance_km ∧
    (FuelingInputModel.from_text (String.mk ['1','k','m'])
        ⟨2022, 1, 1, 0, 0, String.mk ['x']⟩).cost_euros =
      (FuelingInputModel.from_text (String.mk ['1','k','m'])
        ⟨2022, 1, 1, 0, 0, String.mk ['x']⟩).cost_euros :=
  c10_deterministic (String.mk ['1','k','m']) (String.mk ['1','k','m'])
    ⟨2022, 1, 1, 0, 0, String.mk ['x']⟩ ⟨2022, 1, 1, 0, 0, String.mk ['x']⟩
    rfl rfl
